import Mathlib

/-!
Shallow embedding of `src/subtitle_writer.py` (class `SubtitleWriter`) from
the whisper-subtitle-cli repository, together with proofs settling the
frozen claims about it.

Modelling conventions:
* Python strings are `List Char`; file contents are `List Char`.
* Python floats (the `start`/`end` seconds of a segment) are modelled as
  exact rationals `ℚ`, matching the spec's description of them as real
  numbers; `//`, `%` and `int(...)` on them are modelled by the exact
  floored-division, floored-modulo and truncation operations below.
* The file system is a partial map `List Char → Option (List Char)` from
  paths to contents; functions that read a file take it as an argument and
  functions that raise `FileNotFoundError` / `ZeroDivisionError` return a
  `PyResult`.
* `str.strip()` / regex `\s` use the ASCII whitespace characters
  (space, tab, newline, carriage return, vertical tab, form feed).
-/

/-- The ASCII whitespace characters recognised by Python's `str.strip()`
and by `\s` in the timestamp regex. -/
def isPySpace (c : Char) : Bool :=
  c = ' ' || c = '\t' || c = '\n' || c = '\r' || c = '\x0b' || c = '\x0c'

/-- Python `str.strip()`: drop leading and trailing whitespace. -/
def pyStrip (l : List Char) : List Char :=
  ((l.dropWhile isPySpace).reverse.dropWhile isPySpace).reverse

/-- Python `str.splitlines()`: split on `\n`, `\r\n` or `\r`, with no
trailing empty line for a trailing terminator (`"".splitlines() == []`).
The accumulator holds the current line reversed. -/
def splitlinesAux : List Char → List Char → List (List Char)
  | [], acc => if acc.isEmpty then [] else [acc.reverse]
  | '\r' :: '\n' :: rest, acc => acc.reverse :: splitlinesAux rest []
  | '\r' :: rest, acc => acc.reverse :: splitlinesAux rest []
  | '\n' :: rest, acc => acc.reverse :: splitlinesAux rest []
  | c :: rest, acc => splitlinesAux rest (c :: acc)

/-- Python `str.splitlines()`. -/
def splitlines (l : List Char) : List (List Char) :=
  splitlinesAux l []

/-- `re.split(r'\n\n+', s)`: split on every maximal run of two-or-more
newlines (`re.split` on `""` yields `[""]`).  The `Nat` argument is
recursion fuel; `splitBlocks` instantiates it with the string length,
which is sufficient because every step consumes at least one character. -/
def splitBlocksAux : Nat → List Char → List (List Char)
  | _, [] => [[]]
  | 0, _ :: _ => [[]]
  | fuel + 1, c :: rest =>
    if c = '\n' ∧ rest.head? = some '\n' then
      [] :: splitBlocksAux fuel (rest.tail.dropWhile (· = '\n'))
    else
      match splitBlocksAux fuel rest with
      | [] => [[c]]
      | b :: bs => (c :: b) :: bs

/-- `re.split(r'\n\n+', s)`. -/
def splitBlocks (cs : List Char) : List (List Char) :=
  splitBlocksAux cs.length cs

/-- The decimal digit characters. -/
def digitChar : Nat → Char
  | 0 => '0' | 1 => '1' | 2 => '2' | 3 => '3' | 4 => '4'
  | 5 => '5' | 6 => '6' | 7 => '7' | 8 => '8' | _ => '9'

/-- Decimal rendering of a natural number (Python `str(n)` / `f"{n:d}"` for
`n ≥ 0`), with recursion fuel (`natDigits` feeds it `n + 1`, which is
sufficient since the argument strictly decreases). -/
def natDigitsAux : Nat → Nat → List Char
  | 0, _ => []
  | fuel + 1, n =>
    if n < 10 then [digitChar n]
    else natDigitsAux fuel (n / 10) ++ [digitChar (n % 10)]

/-- Decimal rendering of a natural number, without leading zeros. -/
def natDigits (n : Nat) : List Char :=
  natDigitsAux (n + 1) n

/-- Python `f"{n:0wd}"` for `n ≥ 0`: decimal digits left-padded with `'0'`
to a minimum total width `w`. -/
def fmtNat (w : Nat) (n : Nat) : List Char :=
  List.replicate (w - (natDigits n).length) '0' ++ natDigits n

/-- Python `f"{n:0wd}"` for an arbitrary integer: a negative number is
rendered with a leading minus sign that counts towards the width. -/
def fmtInt (w : Nat) (n : Int) : List Char :=
  if n < 0 then '-' :: fmtNat (w - 1) (-n).toNat else fmtNat w n.toNat

/-- The numeric value of a list of decimal digit characters
(`int(s)` on a digit string). -/
def valueOfDigits (ds : List Char) : Nat :=
  ds.foldl (fun a c => 10 * a + (c.toNat - 48)) 0

/-- Python float `%` (floored modulo, used with positive moduli 3600, 60
and 1 in `_format_timestamp`). -/
def pymod (a b : ℚ) : ℚ := a - b * ⌊a / b⌋

/-- Python float `//` (floored division; the result is a float). -/
def pyFloorDiv (a b : ℚ) : ℚ := (⌊a / b⌋ : ℚ)

/-- Python `int(x)` on a float: truncation towards zero. -/
def pyint (q : ℚ) : Int := if 0 ≤ q then ⌊q⌋ else -⌊-q⌋

/-- `SubtitleWriter._format_timestamp`: format seconds as `HH:MM:SS,mmm`.

```python
hours = int(seconds // 3600)
minutes = int((seconds % 3600) // 60)
secs = int(seconds % 60)
milliseconds = int((seconds % 1) * 1000)
return f"{hours:02d}:{minutes:02d}:{secs:02d},{milliseconds:03d}"
``` -/
def format_timestamp (seconds : ℚ) : List Char :=
  let hours := pyint (pyFloorDiv seconds 3600)
  let minutes := pyint (pyFloorDiv (pymod seconds 3600) 60)
  let secs := pyint (pymod seconds 60)
  let milliseconds := pyint (pymod seconds 1 * 1000)
  fmtInt 2 hours ++ ':' :: fmtInt 2 minutes ++ ':' :: fmtInt 2 secs
    ++ ',' :: fmtInt 3 milliseconds

/-- A transcription segment: the Python dict `{'start': .., 'end': .., 'text': ..}`. -/
structure Segment where
  start : ℚ
  «end» : ℚ
  text : List Char
deriving DecidableEq

/-- The timestamp line `f"{start_time} --> {end_time}"` written by
`write_srt` (and, bracketed, by `write_timestamped_txt`). -/
def tsLine (seg : Segment) : List Char :=
  format_timestamp seg.start ++ " --> ".data ++ format_timestamp seg.«end»

/-- `SubtitleWriter.write_srt`, as the file content it writes: an empty
segment list writes an empty file, otherwise for each segment (1-indexed)
the lines `str(i)`, the timestamp line, the text, and a blank line are
emitted, and all lines are joined with `"\n"`. -/
def write_srt (segments : List Segment) : List Char :=
  if segments = [] then []
  else
    List.intercalate ['\n']
      (((segments.enumFrom 1).map
        (fun p => [natDigits p.1, tsLine p.2, p.2.text, []])).flatten)

/-- `SubtitleWriter.write_txt`, as the file content it writes: the segment
texts joined with `"\n\n"`. -/
def write_txt (segments : List Segment) : List Char :=
  if segments = [] then []
  else List.intercalate "\n\n".data (segments.map (·.text))

/-- `SubtitleWriter.write_timestamped_txt`, as the file content it writes:
one line `f"[{start} --> {end}] {text}"` per segment, joined with `"\n"`. -/
def write_timestamped_txt (segments : List Segment) : List Char :=
  if segments = [] then []
  else
    List.intercalate ['\n']
      (segments.map (fun seg => '[' :: tsLine seg ++ "] ".data ++ seg.text))

/-- Consume exactly `k` decimal digits (the regex `\d{k}`), returning their
numeric value and the remaining characters. -/
def parseDigitsK (k : Nat) (cs : List Char) : Option (Nat × List Char) :=
  let ds := cs.take k
  if ds.length = k ∧ ds.all Char.isDigit then some (valueOfDigits ds, cs.drop k)
  else none

/-- Consume one expected literal character. -/
def expectCh (c : Char) : List Char → Option (List Char)
  | [] => none
  | d :: rest => if d = c then some rest else none

/-- Match the regex `(\d{2}):(\d{2}):(\d{2}),(\d{3})` at the start of the
input and convert the four groups to seconds
(`h*3600 + m*60 + s + ms/1000`), returning the remaining characters. -/
def matchTimestamp (cs : List Char) : Option (ℚ × List Char) :=
  (parseDigitsK 2 cs).bind fun hr =>
  (expectCh ':' hr.2).bind fun r2 =>
  (parseDigitsK 2 r2).bind fun mr =>
  (expectCh ':' mr.2).bind fun r4 =>
  (parseDigitsK 2 r4).bind fun sr =>
  (expectCh ',' sr.2).bind fun r6 =>
  (parseDigitsK 3 r6).bind fun msr =>
  some ((hr.1 : ℚ) * 3600 + (mr.1 : ℚ) * 60 + (sr.1 : ℚ) + (msr.1 : ℚ) / 1000,
        msr.2)

/-- `re.match` of the timestamp-pair pattern
`(\d{2}):(\d{2}):(\d{2}),(\d{3})\s*-->\s*(\d{2}):(\d{2}):(\d{2}),(\d{3})`
used by `parse_srt` on line 1 of each block: a *prefix* match (anything may
follow the second timestamp), yielding the decoded start and end seconds. -/
def matchTimestampPair (cs : List Char) : Option (ℚ × ℚ) :=
  (matchTimestamp cs).bind fun ar =>
  (expectCh '-' (ar.2.dropWhile isPySpace)).bind fun r3 =>
  (expectCh '-' r3).bind fun r4 =>
  (expectCh '>' r4).bind fun r5 =>
  (matchTimestamp (r5.dropWhile isPySpace)).bind fun br =>
  some (ar.1, br.1)

/-- `SubtitleWriter.parse_srt`, on file content: split the stripped content
into blocks on runs of two-or-more newlines; for each block split into
lines, skip it if it has fewer than 3 lines or if line 1 does not match the
timestamp-pair pattern, and otherwise append a segment whose text is lines
2.. rejoined with newlines (line 0, the sequence number, is ignored). -/
def parse_srt_content (content : List Char) : List Segment :=
  let blocks := splitBlocks (pyStrip content)
  blocks.foldl
    (fun segments block =>
      let lines := (pyStrip block).splitOn '\n'
      if lines.length < 3 then segments
      else
        let timestampLine := lines.getD 1 []
        let text := List.intercalate ['\n'] (lines.drop 2)
        match matchTimestampPair timestampLine with
        | some se => segments ++ [⟨se.1, se.2, text⟩]
        | none => segments)
    []

/-- A Python exception raised by the modelled functions. -/
inductive PyErr where
  | fileNotFound (msg : List Char)
  | zeroDivision
deriving DecidableEq

/-- Result of a Python call: a value or a raised exception. -/
inductive PyResult (α : Type) where
  | ok (val : α)
  | error (err : PyErr)
deriving DecidableEq

/-- The universal-newline translation performed by `Path.read_text`
(text-mode reading with the default `newline=None`): each `"\r\n"` pair and
each lone `'\r'` in the stored bytes is returned as `'\n'`. -/
def universalNewlines : List Char → List Char
  | [] => []
  | [c] => [if c = '\r' then '\n' else c]
  | c :: d :: rest =>
    if c = '\r' then
      if d = '\n' then '\n' :: universalNewlines rest
      else '\n' :: universalNewlines (d :: rest)
    else c :: universalNewlines (d :: rest)

/-- `SubtitleWriter.parse_srt`, as called on a path:
`Path(p).read_text(encoding='utf-8')` raises `FileNotFoundError` (naming
the path) when the file does not exist; otherwise it returns the stored
content with universal-newline translation applied (text mode), and that
is parsed with `parse_srt_content`. -/
def parse_srt (fs : List Char → Option (List Char)) (p : List Char) :
    PyResult (List Segment) :=
  match fs p with
  | none => .error (.fileNotFound p)
  | some content => .ok (parse_srt_content (universalNewlines content))

/-- The final path component (`PurePath.name`): everything after the last
`'/'`. -/
def pathName (p : List Char) : List Char :=
  (p.reverse.takeWhile (fun c => c ≠ '/')).reverse

/-- `str(Path(p).parent / fname)`: replace the final path component of `p`
with `fname` (for a `p` without a directory part, `Path('.') / fname`
renders as just `fname`). -/
def joinParent (p fname : List Char) : List Char :=
  p.take (p.length - (pathName p).length) ++ fname

/-- `PurePath.stem` of a filename: the name with its last extension
removed; a `'.'` at position 0 or at the very end does not start an
extension. -/
def pyStem (name : List Char) : List Char :=
  let extRev := name.reverse.takeWhile (fun c => c ≠ '.')
  if extRev.length = name.length ∨ extRev.length = 0 ∨
      extRev.length = name.length - 1 then name
  else name.take (name.length - extRev.length - 1)

/-- The `base_name` computed by `split_timestamped_txt`:

```python
base_name = timestamped_path.stem  # Removes .txt
if base_name.endswith('.timestamped'):
    base_name = base_name[:-len('.timestamped')]
``` -/
def deriveBaseName (p : List Char) : List Char :=
  let s := pyStem (pathName p)
  if ".timestamped".data.isSuffixOf s then
    s.take (s.length - ".timestamped".data.length)
  else s

/-- The lines of chunk `i` (0-indexed): the Python slice
`lines[chunk_idx*spc : min((chunk_idx+1)*spc, len(lines))]`. -/
def chunkGroup (lines : List (List Char)) (spc i : Nat) : List (List Char) :=
  (lines.drop (i * spc)).take (min ((i + 1) * spc) lines.length - i * spc)

/-- The filename of chunk `i` (0-indexed) out of `total`:
`f"{base_name}.timestamped.chunk{i+1:03d}of{total:03d}.txt"`. -/
def chunkFilename (baseName : List Char) (i total : Nat) : List Char :=
  baseName ++ ".timestamped.chunk".data ++ fmtNat 3 (i + 1)
    ++ "of".data ++ fmtNat 3 total ++ ".txt".data

/-- Outcome of `split_timestamped_txt`: the list of `(path, content)` file
writes it performed, in order, and its return value (the created paths) or
the exception it raised. -/
structure SplitOut where
  writes : List (List Char × List Char)
  ret : PyResult (List (List Char))
deriving DecidableEq

/-- `SubtitleWriter.split_timestamped_txt`: raise `FileNotFoundError` if
the input path does not exist; read its lines with `splitlines`; return
`[]` for an empty file; compute `total_chunks = math.ceil(len(lines) /
segments_per_chunk)` (a `ZeroDivisionError` when `segments_per_chunk == 0`;
for a negative count the ceiling is non-positive and the chunk loop runs
zero times); then write each chunk (lines joined with `"\n"`) under its
derived filename in the input file's directory and return the created
paths.  `segments_per_chunk` is an `Int` to model Python call sites passing
zero or negative counts; inside the loop it is positive, so the slice
indices use its `toNat`.  `math.ceil` of the float division is modelled as
the exact rational ceiling. -/
def split_timestamped_txt (fs : List Char → Option (List Char))
    (p : List Char) (segments_per_chunk : Int) : SplitOut :=
  match fs p with
  | none => ⟨[], .error (.fileNotFound ("Timestamped file not found: ".data ++ p))⟩
  | some content =>
    let lines := splitlines content
    if lines.isEmpty then ⟨[], .ok []⟩
    else if segments_per_chunk = 0 then ⟨[], .error .zeroDivision⟩
    else
      let totalChunks : Int := ⌈(lines.length : ℚ) / (segments_per_chunk : ℚ)⌉
      let spc := segments_per_chunk.toNat
      let chunkFiles := (List.range totalChunks.toNat).map
        (fun idx =>
          (joinParent p (chunkFilename (deriveBaseName p) idx totalChunks.toNat),
           List.intercalate ['\n'] (chunkGroup lines spc idx)))
      ⟨chunkFiles, .ok (chunkFiles.map Prod.fst)⟩

/-- The handling of one candidate block inside the `parse_srt` loop, as a
function: `None` for a block with fewer than 3 lines or whose line 1 does
not match the timestamp-pair pattern, otherwise the parsed segment. -/
def parseBlock (block : List Char) : Option Segment :=
  let lines := (pyStrip block).splitOn '\n'
  if lines.length < 3 then none
  else
    (matchTimestampPair (lines.getD 1 [])).map
      (fun se => ⟨se.1, se.2, List.intercalate ['\n'] (lines.drop 2)⟩)

/-- No two consecutive newline characters (such a string is kept intact by
the `re.split(r'\n\n+', ...)` block splitter). -/
def NoBlankRun (l : List Char) : Prop :=
  l.Chain' (fun a b => ¬(a = '\n' ∧ b = '\n'))

/-- Side conditions under which the SRT round-trip is the identity on a
segment: `start` and `end` are non-negative whole-millisecond values below
100 hours (so the fixed-width timestamp codec is lossless), every line of
`text` is nonempty (so block splitting on blank lines is preserved),
`text` does not end in a whitespace character (so the per-block `strip()`
performed by the parser is the identity), and `text` contains no carriage
return (so the universal-newline translation performed by `read_text` is
the identity on the written file). -/
def goodSegment (seg : Segment) : Bool :=
  decide (0 ≤ seg.start) && decide (seg.start < 360000)
    && (seg.start * 1000).den == 1
    && decide (0 ≤ seg.«end») && decide (seg.«end» < 360000)
    && (seg.«end» * 1000).den == 1
    && (seg.text.splitOn '\n').all (fun l => !l.isEmpty)
    && !(isPySpace (seg.text.getLastD 'x'))
    && seg.text.all (fun c => c != '\r')

section
attribute [local semireducible] Rat.add Rat.sub Rat.mul Rat.inv Rat.ofScientific

/-! ### Decimal digit lemmas -/

lemma natDigitsAux_eq_of_lt : ∀ {f₁ f₂ n : Nat}, n < f₁ → n < f₂ →
    natDigitsAux f₁ n = natDigitsAux f₂ n := by
  intro f₁
  induction f₁ with
  | zero => intro f₂ n h; omega
  | succ f ih =>
    intro f₂ n h₁ h₂
    cases f₂ with
    | zero => omega
    | succ g =>
      show natDigitsAux (f + 1) n = natDigitsAux (g + 1) n
      unfold natDigitsAux
      by_cases hn : n < 10
      · simp [hn]
      · have hd : n / 10 < n := Nat.div_lt_self (by omega) (by omega)
        simp only [hn, if_false]
        rw [@ih g (n / 10) (by omega) (by omega)]

lemma natDigits_eq (n : Nat) :
    natDigits n = if n < 10 then [digitChar n]
      else natDigits (n / 10) ++ [digitChar (n % 10)] := by
  show natDigitsAux (n + 1) n = _
  unfold natDigitsAux
  by_cases hn : n < 10
  · simp [hn]
  · have hd : n / 10 < n := Nat.div_lt_self (by omega) (by omega)
    simp only [hn, if_false]
    rw [@natDigitsAux_eq_of_lt n (n / 10 + 1) (n / 10) hd (Nat.lt_succ_self _)]
    rfl

lemma digitChar_isDigit (d : Nat) : (digitChar d).isDigit = true := by
  rcases d with _|_|_|_|_|_|_|_|_|d <;> rfl

lemma digitChar_toNat (d : Nat) (h : d < 10) : (digitChar d).toNat - 48 = d := by
  interval_cases d <;> decide

lemma natDigits_ne_nil (n : Nat) : natDigits n ≠ [] := by
  rw [natDigits_eq]
  split <;> simp

lemma natDigits_all_digit (n : Nat) : ∀ c ∈ natDigits n, c.isDigit = true := by
  induction n using Nat.strong_induction_on with
  | _ n ih =>
    rw [natDigits_eq]
    by_cases hn : n < 10
    · simp [hn, digitChar_isDigit]
    · have hd : n / 10 < n := Nat.div_lt_self (by omega) (by omega)
      simp only [hn, if_false, List.mem_append, List.mem_singleton]
      rintro c (hc | rfl)
      · exact ih _ hd c hc
      · exact digitChar_isDigit _

lemma valueOfDigits_append_singleton (ds : List Char) (c : Char) :
    valueOfDigits (ds ++ [c]) = 10 * valueOfDigits ds + (c.toNat - 48) := by
  simp [valueOfDigits, List.foldl_append]

lemma valueOfDigits_natDigits (n : Nat) : valueOfDigits (natDigits n) = n := by
  induction n using Nat.strong_induction_on with
  | _ n ih =>
    rw [natDigits_eq]
    by_cases hn : n < 10
    · simp only [hn, if_true]
      show 10 * 0 + ((digitChar n).toNat - 48) = n
      rw [digitChar_toNat n hn]
      omega
    · have hd : n / 10 < n := Nat.div_lt_self (by omega) (by omega)
      simp only [hn, if_false]
      rw [valueOfDigits_append_singleton, ih _ hd,
        digitChar_toNat _ (Nat.mod_lt _ (by omega))]
      omega

lemma natDigits_length_le : ∀ (k n : Nat), 0 < k → n < 10 ^ k →
    (natDigits n).length ≤ k := by
  intro k
  induction k with
  | zero => omega
  | succ k ih =>
    intro n _ hn
    rw [natDigits_eq]
    by_cases h10 : n < 10
    · simp [h10]
    · have hk : 0 < k := by
        by_contra h
        have : k = 0 := by omega
        subst this
        simp [pow_succ] at hn
        omega
      have hdiv : n / 10 < 10 ^ k := by
        rw [Nat.div_lt_iff_lt_mul (by omega)]
        calc n < 10 ^ (k + 1) := hn
        _ = 10 ^ k * 10 := by rw [pow_succ]
      simp only [h10, if_false, List.length_append, List.length_singleton]
      have := ih (n / 10) hk hdiv
      omega

lemma fmtNat_length (w n : Nat) (hw : 0 < w) (hn : n < 10 ^ w) :
    (fmtNat w n).length = w := by
  have h := natDigits_length_le w n hw hn
  simp [fmtNat]
  omega

lemma fmtNat_all_digit (w n : Nat) : ∀ c ∈ fmtNat w n, c.isDigit = true := by
  simp only [fmtNat, List.mem_append, List.mem_replicate]
  rintro c (⟨-, rfl⟩ | hc)
  · decide
  · exact natDigits_all_digit n c hc

lemma foldl_replicate_zero (k : Nat) :
    List.foldl (fun a c => 10 * a + (c.toNat - 48)) 0 (List.replicate k '0') = 0 := by
  induction k with
  | zero => rfl
  | succ k ih => simpa [List.replicate_succ] using ih

lemma valueOfDigits_fmtNat (w n : Nat) : valueOfDigits (fmtNat w n) = n := by
  have : valueOfDigits (fmtNat w n) = valueOfDigits (natDigits n) := by
    simp [fmtNat, valueOfDigits, List.foldl_append, foldl_replicate_zero]
  rw [this, valueOfDigits_natDigits]

lemma parseDigitsK_of_digits (k : Nat) (ds rest : List Char)
    (hlen : ds.length = k) (hdig : ∀ c ∈ ds, c.isDigit = true) :
    parseDigitsK k (ds ++ rest) = some (valueOfDigits ds, rest) := by
  unfold parseDigitsK
  rw [List.take_left' hlen, List.drop_left' hlen]
  have hall : ds.all Char.isDigit = true := List.all_eq_true.mpr hdig
  simp [hlen, hall]

lemma parseDigitsK_fmtNat (w n : Nat) (rest : List Char) (hw : 0 < w)
    (hn : n < 10 ^ w) :
    parseDigitsK w (fmtNat w n ++ rest) = some (n, rest) := by
  rw [parseDigitsK_of_digits w _ rest (fmtNat_length w n hw hn)
    (fmtNat_all_digit w n), valueOfDigits_fmtNat]

lemma parseDigitsK_fmtNat' (w n : Nat) (hw : 0 < w) (hn : n < 10 ^ w) :
    ∀ rest : List Char, parseDigitsK w (fmtNat w n ++ rest) = some (n, rest) :=
  fun rest => parseDigitsK_fmtNat w n rest hw hn

/-! ### Timestamp codec arithmetic -/

lemma pymod_eq_mul_fract (a b : ℚ) (hb : b ≠ 0) :
    pymod a b = b * Int.fract (a / b) := by
  unfold pymod
  rw [Int.fract]
  field_simp

lemma pymod_nonneg (a b : ℚ) (hb : 0 < b) : 0 ≤ pymod a b := by
  rw [pymod_eq_mul_fract a b hb.ne.symm]
  exact mul_nonneg hb.le (Int.fract_nonneg _)

lemma pymod_lt (a b : ℚ) (hb : 0 < b) : pymod a b < b := by
  rw [pymod_eq_mul_fract a b hb.ne.symm]
  calc b * Int.fract (a / b) < b * 1 :=
        (mul_lt_mul_left hb).mpr (Int.fract_lt_one _)
  _ = b := mul_one b

lemma floor_pymod (a : ℚ) (z : ℤ) :
    ⌊pymod a (z : ℚ)⌋ = ⌊a⌋ - z * ⌊a / (z : ℚ)⌋ := by
  unfold pymod
  have : a - (z : ℚ) * ⌊a / (z : ℚ)⌋ = a - ((z * ⌊a / (z : ℚ)⌋ : ℤ) : ℚ) := by
    push_cast
    ring
  rw [this, Int.floor_sub_int]

lemma pymod_pymod (s : ℚ) :
    pymod (pymod s 3600) 60 = pymod s 60 := by
  have h36 : (3600 : ℚ) = ((3600 : ℤ) : ℚ) := by norm_num
  have key : ⌊pymod s 3600 / 60⌋ = ⌊s / 60⌋ - 60 * ⌊s / 3600⌋ := by
    have : pymod s 3600 / 60 = s / 60 - ((60 * ⌊s / 3600⌋ : ℤ) : ℚ) := by
      unfold pymod
      push_cast
      ring
    rw [this, Int.floor_sub_int]
  rw [show pymod (pymod s 3600) 60
      = pymod s 3600 - 60 * ⌊pymod s 3600 / 60⌋ from rfl, key]
  unfold pymod
  push_cast
  ring

lemma floor_ms (s : ℚ) :
    ⌊pymod s 1 * 1000⌋ = ⌊1000 * s⌋ - 1000 * ⌊s⌋ := by
  have : pymod s 1 * 1000 = 1000 * s - ((1000 * ⌊s⌋ : ℤ) : ℚ) := by
    unfold pymod
    rw [div_one]
    push_cast
    ring
  rw [this, Int.floor_sub_int]

/-- The integer fields computed by `_format_timestamp` decompose `⌊s⌋`. -/
lemma timestamp_fields_decomp (s : ℚ) :
    3600 * ⌊s / 3600⌋ + 60 * ⌊pymod s 3600 / 60⌋ + ⌊pymod s 60⌋ = ⌊s⌋ := by
  have h1 : ⌊pymod s (((3600 : ℤ) : ℚ))⌋ = ⌊s⌋ - 3600 * ⌊s / 3600⌋ := by
    have := floor_pymod s 3600
    norm_num at this ⊢
    exact this
  have h2 : ⌊pymod (pymod s 3600) (((60 : ℤ) : ℚ))⌋ =
      ⌊pymod s 3600⌋ - 60 * ⌊pymod s 3600 / 60⌋ := by
    have := floor_pymod (pymod s 3600) 60
    norm_num at this ⊢
    exact this
  have h3 : pymod (pymod s 3600) 60 = pymod s 60 := pymod_pymod s
  norm_num at h1 h2
  rw [h3] at h2
  omega

lemma pyint_intCast (z : ℤ) : pyint ((z : ℚ)) = z := by
  unfold pyint
  by_cases h : (0 : ℚ) ≤ (z : ℚ)
  · rw [if_pos h, Int.floor_intCast]
  · rw [if_neg h]
    rw [show -((z : ℚ)) = (((-z : ℤ)) : ℚ) by push_cast; ring, Int.floor_intCast]
    ring

lemma pyint_pyFloorDiv (a b : ℚ) : pyint (pyFloorDiv a b) = ⌊a / b⌋ :=
  pyint_intCast _

lemma pyint_of_nonneg (q : ℚ) (h : 0 ≤ q) : pyint q = ⌊q⌋ := if_pos h

lemma fmtInt_of_nonneg (w : Nat) (n : Int) (h : 0 ≤ n) :
    fmtInt w n = fmtNat w n.toNat := if_neg (by omega)

/-- For non-negative seconds, `_format_timestamp` renders the four
floor-computed fields zero-padded to widths 2, 2, 2 and 3. -/
lemma format_timestamp_eq_fields (s : ℚ) (hs : 0 ≤ s) :
    format_timestamp s =
      fmtNat 2 ⌊s / 3600⌋.toNat ++ ':' :: fmtNat 2 ⌊pymod s 3600 / 60⌋.toNat
        ++ ':' :: fmtNat 2 ⌊pymod s 60⌋.toNat
        ++ ',' :: fmtNat 3 (⌊pymod s 1 * 1000⌋).toNat := by
  have hh : 0 ≤ ⌊s / 3600⌋ := Int.floor_nonneg.mpr (by positivity)
  have hm : 0 ≤ ⌊pymod s 3600 / 60⌋ :=
    Int.floor_nonneg.mpr (div_nonneg (pymod_nonneg s 3600 (by norm_num)) (by norm_num))
  have hsec : 0 ≤ ⌊pymod s 60⌋ :=
    Int.floor_nonneg.mpr (pymod_nonneg s 60 (by norm_num))
  have hms : 0 ≤ ⌊pymod s 1 * 1000⌋ :=
    Int.floor_nonneg.mpr (mul_nonneg (pymod_nonneg s 1 (by norm_num)) (by norm_num))
  simp only [format_timestamp]
  rw [pyint_pyFloorDiv, pyint_pyFloorDiv, pyint_of_nonneg _ (pymod_nonneg s 60 (by norm_num)),
    pyint_of_nonneg _ (mul_nonneg (pymod_nonneg s 1 (by norm_num)) (by norm_num)),
    fmtInt_of_nonneg _ _ hh, fmtInt_of_nonneg _ _ hm, fmtInt_of_nonneg _ _ hsec,
    fmtInt_of_nonneg _ _ hms]

lemma timestamp_minutes_bounds (s : ℚ) (hs : 0 ≤ s) :
    0 ≤ ⌊pymod s 3600 / 60⌋ ∧ ⌊pymod s 3600 / 60⌋ < 60 := by
  constructor
  · exact Int.floor_nonneg.mpr
      (div_nonneg (pymod_nonneg s 3600 (by norm_num)) (by norm_num))
  · rw [Int.floor_lt]
    rw [div_lt_iff (by norm_num : (0:ℚ) < 60)]
    calc pymod s 3600 < 3600 := pymod_lt s 3600 (by norm_num)
    _ = 60 * 60 := by norm_num
    _ ≤ (60 : ℤ) * 60 := by norm_num

lemma timestamp_secs_bounds (s : ℚ) (hs : 0 ≤ s) :
    0 ≤ ⌊pymod s 60⌋ ∧ ⌊pymod s 60⌋ < 60 := by
  constructor
  · exact Int.floor_nonneg.mpr (pymod_nonneg s 60 (by norm_num))
  · rw [Int.floor_lt]
    calc pymod s 60 < 60 := pymod_lt s 60 (by norm_num)
    _ ≤ ((60 : ℤ) : ℚ) := by norm_num

lemma timestamp_ms_bounds (s : ℚ) (hs : 0 ≤ s) :
    0 ≤ ⌊pymod s 1 * 1000⌋ ∧ ⌊pymod s 1 * 1000⌋ < 1000 := by
  constructor
  · exact Int.floor_nonneg.mpr
      (mul_nonneg (pymod_nonneg s 1 (by norm_num)) (by norm_num))
  · rw [Int.floor_lt]
    calc pymod s 1 * 1000 < 1 * 1000 := by
          have := pymod_lt s 1 (by norm_num)
          nlinarith
    _ ≤ ((1000 : ℤ) : ℚ) := by norm_num

lemma timestamp_hours_bounds (s : ℚ) (hs : 0 ≤ s) (hlt : s < 360000) :
    0 ≤ ⌊s / 3600⌋ ∧ ⌊s / 3600⌋ < 100 := by
  constructor
  · exact Int.floor_nonneg.mpr (by positivity)
  · rw [Int.floor_lt]
    rw [div_lt_iff (by norm_num : (0:ℚ) < 3600)]
    calc s < 360000 := hlt
    _ = 100 * 3600 := by norm_num
    _ ≤ ((100 : ℤ) : ℚ) * 3600 := by norm_num

lemma isPySpace_eq_false_of_digit (c : Char) (h : c.isDigit = true) :
    isPySpace c = false := by
  cases hps : isPySpace c
  · rfl
  · exfalso
    unfold isPySpace at hps
    simp only [Bool.or_eq_true, decide_eq_true_eq] at hps
    rcases hps with ((((h1 | h1) | h1) | h1) | h1) | h1 <;> subst h1 <;> simp at h

lemma expectCh_same (c : Char) (l : List Char) : expectCh c (c :: l) = some l := by
  simp [expectCh]

lemma fmtNat_ne_nil (w n : Nat) : fmtNat w n ≠ [] := by
  simp [fmtNat, natDigits_ne_nil]

lemma fmtNat_cons_digit (w n : Nat) :
    ∃ c t, fmtNat w n = c :: t ∧ c.isDigit = true := by
  obtain ⟨c, cs, hcons⟩ := List.exists_cons_of_ne_nil (fmtNat_ne_nil w n)
  exact ⟨c, cs, hcons,
    fmtNat_all_digit w n c (by rw [hcons]; exact List.mem_cons_self c cs)⟩

/-- Matching the timestamp regex against four zero-padded fields of widths
2, 2, 2, 3 (with anything appended) succeeds and returns
`h*3600 + m*60 + s + ms/1000`. -/
lemma matchTimestamp_fields (H M SEC MS : Nat) (rest : List Char)
    (hH : H < 100) (hM : M < 100) (hS : SEC < 100) (hMS : MS < 1000) :
    matchTimestamp
        (fmtNat 2 H ++ ':' :: (fmtNat 2 M ++ ':' :: (fmtNat 2 SEC
          ++ ',' :: (fmtNat 3 MS ++ rest))))
      = some ((H : ℚ) * 3600 + (M : ℚ) * 60 + (SEC : ℚ) + (MS : ℚ) / 1000, rest) := by
  unfold matchTimestamp
  simp only [parseDigitsK_fmtNat' 2 H (by norm_num) (lt_of_lt_of_le hH (by norm_num)),
    parseDigitsK_fmtNat' 2 M (by norm_num) (lt_of_lt_of_le hM (by norm_num)),
    parseDigitsK_fmtNat' 2 SEC (by norm_num) (lt_of_lt_of_le hS (by norm_num)),
    parseDigitsK_fmtNat' 3 MS (by norm_num) (lt_of_lt_of_le hMS (by norm_num)),
    expectCh_same, Option.some_bind]

/-- Matching the timestamp regex against a formatted timestamp (with
anything appended) succeeds and decodes to the original seconds truncated
to whole milliseconds. -/
lemma matchTimestamp_format (s : ℚ) (h0 : 0 ≤ s) (h1 : s < 360000)
    (rest : List Char) :
    matchTimestamp (format_timestamp s ++ rest)
      = some ((⌊1000 * s⌋ : ℚ) / 1000, rest) := by
  obtain ⟨hh0, hh1⟩ := timestamp_hours_bounds s h0 h1
  obtain ⟨hm0, hm1⟩ := timestamp_minutes_bounds s h0
  obtain ⟨hs0, hs1⟩ := timestamp_secs_bounds s h0
  obtain ⟨hms0, hms1⟩ := timestamp_ms_bounds s h0
  rw [format_timestamp_eq_fields s h0]
  simp only [List.append_assoc, List.cons_append]
  rw [matchTimestamp_fields _ _ _ _ rest (by omega) (by omega) (by omega) (by omega)]
  have hdec := timestamp_fields_decomp s
  have hmsv := floor_ms s
  have key : (⌊1000 * s⌋ : ℤ)
      = 1000 * (3600 * ⌊s / 3600⌋ + 60 * ⌊pymod s 3600 / 60⌋ + ⌊pymod s 60⌋)
        + ⌊pymod s 1 * 1000⌋ := by omega
  congr 1
  rw [Prod.ext_iff]
  refine ⟨?_, rfl⟩
  show ((⌊s / 3600⌋.toNat : ℚ)) * 3600 + (⌊pymod s 3600 / 60⌋.toNat : ℚ) * 60
      + (⌊pymod s 60⌋.toNat : ℚ) + (⌊pymod s 1 * 1000⌋.toNat : ℚ) / 1000 = _
  rw [key]
  have c1 : ((⌊s / 3600⌋.toNat : ℚ)) = ((⌊s / 3600⌋ : ℤ) : ℚ) := by
    exact_mod_cast Int.toNat_of_nonneg hh0
  have c2 : ((⌊pymod s 3600 / 60⌋.toNat : ℚ)) = ((⌊pymod s 3600 / 60⌋ : ℤ) : ℚ) := by
    exact_mod_cast Int.toNat_of_nonneg hm0
  have c3 : ((⌊pymod s 60⌋.toNat : ℚ)) = ((⌊pymod s 60⌋ : ℤ) : ℚ) := by
    exact_mod_cast Int.toNat_of_nonneg hs0
  have c4 : ((⌊pymod s 1 * 1000⌋.toNat : ℚ)) = ((⌊pymod s 1 * 1000⌋ : ℤ) : ℚ) := by
    exact_mod_cast Int.toNat_of_nonneg hms0
  rw [c1, c2, c3, c4]
  push_cast
  ring

lemma dropWhile_isPySpace_format (b : ℚ) (rest : List Char) (h0b : 0 ≤ b) :
    (format_timestamp b ++ rest).dropWhile isPySpace
      = format_timestamp b ++ rest := by
  rw [format_timestamp_eq_fields b h0b]
  obtain ⟨c, t, hct, hdig⟩ := fmtNat_cons_digit 2 ⌊b / 3600⌋.toNat
  rw [hct]
  simp only [List.append_assoc, List.cons_append, List.dropWhile_cons,
    isPySpace_eq_false_of_digit c hdig, Bool.false_eq_true, if_false]

/-- Matching the timestamp-pair regex against
`format_timestamp a ++ " --> " ++ format_timestamp b` (with anything
appended) succeeds and decodes both timestamps truncated to whole
milliseconds. -/
lemma matchTimestampPair_format (a b : ℚ) (h0a : 0 ≤ a) (h1a : a < 360000)
    (h0b : 0 ≤ b) (h1b : b < 360000) (rest : List Char) :
    matchTimestampPair
        (format_timestamp a ++ (" --> ".data ++ (format_timestamp b ++ rest)))
      = some ((⌊1000 * a⌋ : ℚ) / 1000, (⌊1000 * b⌋ : ℚ) / 1000) := by
  unfold matchTimestampPair
  rw [matchTimestamp_format a h0a h1a]
  simp only [Option.some_bind]
  simp only [List.cons_append, List.dropWhile_cons,
    show isPySpace ' ' = true from rfl, show isPySpace '-' = false from rfl,
    Bool.false_eq_true, if_true, if_false, List.nil_append]
  rw [expectCh_same, Option.some_bind, expectCh_same, Option.some_bind,
    expectCh_same, Option.some_bind]
  simp only [List.dropWhile_cons, show isPySpace ' ' = true from rfl, if_true]
  rw [dropWhile_isPySpace_format b rest h0b, matchTimestamp_format b h0b h1b]
  rfl

/-- Truncating to whole milliseconds loses less than one millisecond. -/
lemma ms_truncation_bounds (s : ℚ) :
    0 ≤ s - (⌊1000 * s⌋ : ℚ) / 1000 ∧ s - (⌊1000 * s⌋ : ℚ) / 1000 < 1 / 1000 := by
  have hle : ((⌊1000 * s⌋ : ℚ)) ≤ 1000 * s := Int.floor_le _
  have hlt : 1000 * s < (⌊1000 * s⌋ : ℚ) + 1 := Int.lt_floor_add_one _
  constructor <;> [skip; skip] <;> nlinarith

/-- A whole-millisecond rational decodes back to itself after millisecond
truncation. -/
lemma floor_1000_of_ms_aligned (q : ℚ) (h : (q * 1000).den = 1) :
    (⌊1000 * q⌋ : ℚ) / 1000 = q := by
  have hnum : (((q * 1000).num : ℤ) : ℚ) = q * 1000 :=
    (Rat.den_eq_one_iff _).mp h
  have : (1000 : ℚ) * q = (((q * 1000).num : ℤ) : ℚ) := by rw [hnum]; ring
  rw [this, Int.floor_intCast]
  rw [hnum]
  field_simp

/-! ### Python strip lemmas -/

lemma dropWhile_eq_self_of_head (l : List Char)
    (h : ∀ c, l.head? = some c → isPySpace c = false) :
    l.dropWhile isPySpace = l := by
  cases l with
  | nil => rfl
  | cons c t =>
    rw [List.dropWhile_cons, h c rfl]
    simp

lemma pyStrip_eq_self (l : List Char)
    (h1 : ∀ c, l.head? = some c → isPySpace c = false)
    (h2 : ∀ c, l.getLast? = some c → isPySpace c = false) :
    pyStrip l = l := by
  unfold pyStrip
  rw [dropWhile_eq_self_of_head l h1,
    dropWhile_eq_self_of_head l.reverse
      (fun c hc => h2 c (by rwa [List.head?_reverse] at hc)),
    List.reverse_reverse]

lemma pyStrip_append_newline (l : List Char)
    (h1 : ∀ c, l.head? = some c → isPySpace c = false)
    (h2 : ∀ c, l.getLast? = some c → isPySpace c = false) :
    pyStrip (l ++ ['\n']) = l := by
  cases l with
  | nil => rfl
  | cons c t =>
    unfold pyStrip
    rw [List.cons_append, List.dropWhile_cons, h1 c rfl]
    simp only [Bool.false_eq_true, if_false]
    have hrev : (c :: (t ++ ['\n'])).reverse = '\n' :: (c :: t).reverse := by
      simp [List.reverse_cons, List.reverse_append]
    rw [hrev, List.dropWhile_cons, show isPySpace '\n' = true from rfl, if_pos rfl,
      dropWhile_eq_self_of_head (c :: t).reverse
        (fun d hd => h2 d (by rwa [List.head?_reverse] at hd)),
      List.reverse_reverse]

/-! ### Block splitting lemmas -/

lemma splitBlocksAux_congr : ∀ {f₁ f₂ : Nat} {cs : List Char},
    cs.length ≤ f₁ → cs.length ≤ f₂ → splitBlocksAux f₁ cs = splitBlocksAux f₂ cs := by
  intro f₁
  induction f₁ with
  | zero =>
    intro f₂ cs h₁ _
    have : cs = [] := List.eq_nil_of_length_eq_zero (by omega)
    subst this
    cases f₂ <;> rfl
  | succ f ih =>
    intro f₂ cs h₁ h₂
    cases cs with
    | nil => cases f₂ <;> rfl
    | cons c rest =>
      cases f₂ with
      | zero => simp at h₂
      | succ g =>
        show splitBlocksAux (f + 1) (c :: rest) = splitBlocksAux (g + 1) (c :: rest)
        unfold splitBlocksAux
        have hr : rest.length ≤ f := by simpa using h₁
        have hg : rest.length ≤ g := by simpa using h₂
        have hd : (rest.tail.dropWhile (· = '\n')).length ≤ rest.length := by
          calc (rest.tail.dropWhile (· = '\n')).length ≤ rest.tail.length :=
                (List.dropWhile_sublist _).length_le
          _ ≤ rest.length := by simp
        by_cases hc : c = '\n' ∧ rest.head? = some '\n'
        · rw [if_pos hc, if_pos hc,
            @ih g (rest.tail.dropWhile (· = '\n')) (by omega) (by omega)]
        · rw [if_neg hc, if_neg hc, @ih g rest hr hg]

lemma splitBlocksAux_ne_nil : ∀ (f : Nat) (cs : List Char), splitBlocksAux f cs ≠ [] := by
  intro f
  induction f with
  | zero => intro cs; cases cs <;> simp [splitBlocksAux]
  | succ f ih =>
    intro cs
    cases cs with
    | nil => simp [splitBlocksAux]
    | cons c rest =>
      unfold splitBlocksAux
      by_cases hc : c = '\n' ∧ rest.head? = some '\n'
      · simp [hc]
      · rw [if_neg hc]
        rcases hsb : splitBlocksAux f rest with _ | ⟨b, bs⟩ <;> simp

lemma splitBlocks_ne_nil (cs : List Char) : splitBlocks cs ≠ [] :=
  splitBlocksAux_ne_nil _ _

lemma splitBlocks_cons_cons_newline (r : List Char) :
    splitBlocks ('\n' :: '\n' :: r)
      = [] :: splitBlocks (r.dropWhile (· = '\n')) := by
  show splitBlocksAux (r.length + 2) ('\n' :: '\n' :: r) = _
  unfold splitBlocksAux
  rw [if_pos ⟨rfl, rfl⟩]
  show [] :: splitBlocksAux (r.length + 1) (r.dropWhile (· = '\n')) = _
  congr 1
  exact splitBlocksAux_congr
    (le_trans (List.dropWhile_sublist _).length_le (by omega)) (le_refl _)

lemma splitBlocks_cons_of_not_run (c : Char) (rest : List Char)
    (h : ¬(c = '\n' ∧ rest.head? = some '\n')) :
    splitBlocks (c :: rest)
      = match splitBlocks rest with
        | [] => [[c]]
        | b :: bs => (c :: b) :: bs := by
  show splitBlocksAux (rest.length + 1) (c :: rest) = _
  unfold splitBlocksAux
  rw [if_neg h]
  rfl

lemma splitBlocks_of_noRun (B : List Char) (hB : NoBlankRun B) :
    splitBlocks B = [B] := by
  induction B with
  | nil => rfl
  | cons c rest ih =>
    have hrest : NoBlankRun rest := hB.tail
    have hcr : ¬(c = '\n' ∧ rest.head? = some '\n') := by
      rintro ⟨rfl, hh⟩
      cases rest with
      | nil => simp at hh
      | cons d t =>
        have hd : d = '\n' := by simpa using hh
        exact (List.chain'_cons.mp hB).1 ⟨rfl, hd⟩
    rw [splitBlocks_cons_of_not_run c rest hcr, ih hrest]

lemma splitBlocks_append_run (B r : List Char) (hB : NoBlankRun B)
    (hlast : B.getLast? ≠ some '\n') :
    splitBlocks (B ++ '\n' :: '\n' :: r)
      = B :: splitBlocks (r.dropWhile (· = '\n')) := by
  induction B with
  | nil => simpa using splitBlocks_cons_cons_newline r
  | cons c rest ih =>
    cases rest with
    | nil =>
      have hc : c ≠ '\n' := by simpa using hlast
      rw [List.singleton_append,
        splitBlocks_cons_of_not_run c ('\n' :: '\n' :: r)
          (by rintro ⟨rfl, -⟩; exact hc rfl),
        splitBlocks_cons_cons_newline r]
    | cons d t =>
      have hrel : ¬(c = '\n' ∧ d = '\n') := (List.chain'_cons.mp hB).1
      have hrest : NoBlankRun (d :: t) := (List.chain'_cons.mp hB).2
      have hlast' : (d :: t).getLast? ≠ some '\n' := by
        rwa [List.getLast?_cons_cons] at hlast
      rw [List.cons_append,
        splitBlocks_cons_of_not_run c ((d :: t) ++ '\n' :: '\n' :: r)
          (by rintro ⟨rfl, hh⟩
              simp only [List.cons_append, List.head?_cons, Option.some_inj] at hh
              exact hrel ⟨rfl, hh⟩),
        ih hrest hlast']

lemma intercalate_cons_cons (s x y : List Char) (t : List (List Char)) :
    List.intercalate s (x :: y :: t) = x ++ s ++ List.intercalate s (y :: t) := by
  simp [List.intercalate, List.intersperse_cons₂, List.append_assoc]

lemma mem_splitOn_not_mem : ∀ (xs l : List Char), l ∈ xs.splitOn '\n' → '\n' ∉ l := by
  intro xs
  induction xs with
  | nil =>
    intro l hl
    simp only [List.splitOn_nil, List.mem_singleton] at hl
    subst hl
    simp
  | cons c rest ih =>
    intro l hl
    by_cases hc : c = '\n'
    · subst hc
      simp only [List.splitOn, List.splitOnP_cons, beq_self_eq_true, if_pos] at hl
      rcases List.mem_cons.mp hl with rfl | hl'
      · simp
      · exact ih l hl'
    · simp only [List.splitOn, List.splitOnP_cons, show (c == '\n') = false by
        simp [hc], Bool.false_eq_true, if_false] at hl
      rcases hsp : rest.splitOnP (· == '\n') with _ | ⟨b, bs⟩
      · exact absurd hsp (List.splitOnP_ne_nil _ rest)
      · rw [hsp] at hl
        simp only [List.modifyHead, List.mem_cons] at hl
        rcases hl with rfl | hl'
        · intro hmem
          rcases List.mem_cons.mp hmem with h' | h'
          · exact hc h'.symm
          · exact ih b (by rw [List.splitOn, hsp]; exact List.mem_cons_self b bs) h'
        · exact ih l (by rw [List.splitOn, hsp]; exact List.mem_cons_of_mem b hl')

lemma noBlankRun_of_no_newline (l : List Char) (h : '\n' ∉ l) : NoBlankRun l := by
  induction l with
  | nil => exact List.chain'_nil
  | cons c rest ih =>
    cases rest with
    | nil => simp [NoBlankRun]
    | cons d t =>
      rw [NoBlankRun, List.chain'_cons]
      refine ⟨fun hcd => h (hcd.1 ▸ List.mem_cons_self c _), ?_⟩
      exact ih (fun hm => h (List.mem_cons_of_mem c hm))

lemma head?_ne_of_no_newline (l : List Char) (h : '\n' ∉ l) :
    l.head? ≠ some '\n' := by
  cases l with
  | nil => simp
  | cons c t =>
    simp only [ne_eq, List.head?_cons, Option.some.injEq]
    rintro rfl
    exact h (List.mem_cons_self _ _)

lemma getLast?_ne_of_no_newline (l : List Char) (h : '\n' ∉ l) :
    l.getLast? ≠ some '\n' := by
  intro hc
  exact h (List.mem_of_mem_getLast? (by rw [hc]; rfl))

/-- Joining nonempty newline-free lines with single newlines yields a
string with no blank-line run, not starting or ending with a newline. -/
lemma intercalate_newline_good (ls : List (List Char)) (hne : ls ≠ [])
    (hl : ∀ l ∈ ls, l ≠ [] ∧ '\n' ∉ l) :
    NoBlankRun (List.intercalate ['\n'] ls) ∧
      (List.intercalate ['\n'] ls).head? ≠ some '\n' ∧
      (List.intercalate ['\n'] ls).getLast? ≠ some '\n' := by
  induction ls with
  | nil => contradiction
  | cons x t ih =>
    obtain ⟨hx_ne, hx_nl⟩ := hl x (List.mem_cons_self x t)
    cases t with
    | nil =>
      rw [show List.intercalate ['\n'] [x] = x by simp [List.intercalate]]
      exact ⟨noBlankRun_of_no_newline x hx_nl, head?_ne_of_no_newline x hx_nl,
        getLast?_ne_of_no_newline x hx_nl⟩
    | cons y t' =>
      obtain ⟨hrunIH, hheadIH, hlastIH⟩ :=
        ih (by simp) (fun l hm => hl l (List.mem_cons_of_mem x hm))
      have hy_ne := (hl y (by simp)).1
      have hrest_ne : List.intercalate ['\n'] (y :: t') ≠ [] := by
        intro hc
        cases t' with
        | nil => exact hy_ne (by simpa [List.intercalate] using hc)
        | cons z t'' =>
          rw [intercalate_cons_cons] at hc
          simp at hc
      rw [intercalate_cons_cons,
        show x ++ ['\n'] ++ List.intercalate ['\n'] (y :: t')
          = x ++ '\n' :: List.intercalate ['\n'] (y :: t') by simp]
      refine ⟨?_, ?_, ?_⟩
      · rw [NoBlankRun, List.chain'_append]
        refine ⟨noBlankRun_of_no_newline x hx_nl, ?_, ?_⟩
        · rw [List.chain'_cons']
          refine ⟨fun c hc => ?_, hrunIH⟩
          rintro ⟨-, rfl⟩
          exact hheadIH hc
        · intro a ha b hb
          rintro ⟨rfl, -⟩
          exact hx_nl (List.mem_of_mem_getLast? ha)
      · rcases x with _ | ⟨c, t''⟩
        · exact absurd rfl hx_ne
        · simp only [ne_eq, List.cons_append, List.head?_cons, Option.some.injEq]
          rintro rfl
          exact hx_nl (List.mem_cons_self _ _)
      · rw [List.getLast?_append_of_ne_nil _ (by simp)]
        rw [show ('\n' :: List.intercalate ['\n'] (y :: t')).getLast?
            = (List.intercalate ['\n'] (y :: t')).getLast? from ?_]
        · exact hlastIH
        · cases hi : List.intercalate ['\n'] (y :: t') with
          | nil => exact absurd hi hrest_ne
          | cons z zs => rw [List.getLast?_cons_cons]

/-- `splitBlocks` recovers the blocks from their `"\n\n"`-joined
concatenation, provided every block is nonempty, has no blank-line run and
neither starts nor ends with a newline. -/
lemma splitBlocks_intercalate (Bs : List (List Char)) (hne : Bs ≠ [])
    (hgood : ∀ B ∈ Bs, B ≠ [] ∧ NoBlankRun B ∧ B.head? ≠ some '\n'
      ∧ B.getLast? ≠ some '\n') :
    splitBlocks (List.intercalate ['\n', '\n'] Bs) = Bs := by
  induction Bs with
  | nil => contradiction
  | cons B t ih =>
    obtain ⟨hB_ne, hB_run, hB_head, hB_last⟩ := hgood B (List.mem_cons_self B t)
    cases t with
    | nil =>
      rw [show List.intercalate ['\n', '\n'] [B] = B by simp [List.intercalate]]
      exact splitBlocks_of_noRun B hB_run
    | cons B₂ t' =>
      obtain ⟨hB₂_ne, -, hB₂_head, -⟩ := hgood B₂ (by simp)
      rw [intercalate_cons_cons,
        show B ++ ['\n', '\n'] ++ List.intercalate ['\n', '\n'] (B₂ :: t')
          = B ++ '\n' :: '\n' :: List.intercalate ['\n', '\n'] (B₂ :: t') by simp,
        splitBlocks_append_run B _ hB_run hB_last]
      congr 1
      have hdrop : (List.intercalate ['\n', '\n'] (B₂ :: t')).dropWhile (· = '\n')
          = List.intercalate ['\n', '\n'] (B₂ :: t') := by
        have hhead : (List.intercalate ['\n', '\n'] (B₂ :: t')).head? ≠ some '\n' := by
          cases t' with
          | nil =>
            rw [show List.intercalate ['\n', '\n'] [B₂] = B₂ by simp [List.intercalate]]
            cases B₂ with
            | nil => exact absurd rfl hB₂_ne
            | cons c cs =>
              simp only [ne_eq, List.head?_cons, Option.some.injEq]
              rintro rfl
              exact hB₂_head rfl
          | cons B₃ t'' =>
            rw [intercalate_cons_cons]
            cases B₂ with
            | nil => exact absurd rfl hB₂_ne
            | cons c cs =>
              simp only [ne_eq, List.cons_append, List.head?_cons, Option.some.injEq]
              rintro rfl
              exact hB₂_head rfl
        cases hi : List.intercalate ['\n', '\n'] (B₂ :: t') with
        | nil => rfl
        | cons c cs =>
          rw [List.dropWhile_cons, if_neg]
          simp only [decide_eq_true_eq]
          rintro rfl
          rw [hi] at hhead
          exact hhead rfl
      rw [hdrop]
      exact ih (by simp) (fun l hm => hgood l (List.mem_cons_of_mem B hm))

/-! ### The parse loop as a filterMap -/

lemma parse_srt_content_eq_filterMap (content : List Char) :
    parse_srt_content content
      = (splitBlocks (pyStrip content)).filterMap parseBlock := by
  unfold parse_srt_content
  generalize splitBlocks (pyStrip content) = blocks
  suffices h : ∀ acc : List Segment,
      blocks.foldl
        (fun segments block =>
          let lines := (pyStrip block).splitOn '\n'
          if lines.length < 3 then segments
          else
            let timestampLine := lines.getD 1 []
            let text := List.intercalate ['\n'] (lines.drop 2)
            match matchTimestampPair timestampLine with
            | some se => segments ++ [⟨se.1, se.2, text⟩]
            | none => segments)
        acc
        = acc ++ blocks.filterMap parseBlock by
    simpa using h []
  induction blocks with
  | nil => intro acc; simp
  | cons b bs ih =>
    intro acc
    rw [List.foldl_cons, List.filterMap_cons, ih]
    have hstep :
        (fun segments block =>
          let lines := (pyStrip block).splitOn '\n'
          if lines.length < 3 then segments
          else
            let timestampLine := lines.getD 1 []
            let text := List.intercalate ['\n'] (lines.drop 2)
            match matchTimestampPair timestampLine with
            | some se => segments ++ [⟨se.1, se.2, text⟩]
            | none => segments) acc b
          = acc ++ (parseBlock b).toList := by
      show (if ((pyStrip b).splitOn '\n').length < 3 then acc
        else match matchTimestampPair (((pyStrip b).splitOn '\n').getD 1 []) with
          | some se => acc ++ [⟨se.1, se.2,
              List.intercalate ['\n'] (((pyStrip b).splitOn '\n').drop 2)⟩]
          | none => acc) = acc ++ (parseBlock b).toList
      simp only [parseBlock]
      by_cases hlen : ((pyStrip b).splitOn '\n').length < 3
      · simp [hlen]
      · rw [if_neg hlen, if_neg hlen]
        rcases hm : matchTimestampPair (((pyStrip b).splitOn '\n').getD 1 []) with - | se
        · simp
        · simp
    simp only [hstep]
    rcases hp : parseBlock b with - | seg
    · simp
    · simp

/-! ### The written SRT content as blank-line separated blocks -/

lemma intercalate_append_of_ne_nil (s : List Char) :
    ∀ (l₁ l₂ : List (List Char)), l₁ ≠ [] → l₂ ≠ [] →
      List.intercalate s (l₁ ++ l₂)
        = List.intercalate s l₁ ++ s ++ List.intercalate s l₂ := by
  intro l₁
  induction l₁ with
  | nil => intro l₂ h _; exact absurd rfl h
  | cons x t ih =>
    intro l₂ _ h₂
    cases t with
    | nil =>
      obtain ⟨y, t', rfl⟩ := List.exists_cons_of_ne_nil h₂
      rw [List.singleton_append, intercalate_cons_cons,
        show List.intercalate s [x] = x by simp [List.intercalate]]
    | cons z t' =>
      rw [List.cons_append, List.cons_append, intercalate_cons_cons,
        show z :: (t' ++ l₂) = (z :: t') ++ l₂ from rfl,
        ih l₂ (by simp) h₂, intercalate_cons_cons]
      simp [List.append_assoc]

/-- One block of the SRT file for segment number `i`. -/
def srtBlock (i : Nat) (seg : Segment) : List Char :=
  natDigits i ++ '\n' :: (tsLine seg ++ '\n' :: seg.text)

lemma intercalate_item (a b c : List Char) :
    List.intercalate ['\n'] [a, b, c, []] = (a ++ '\n' :: (b ++ '\n' :: c)) ++ ['\n'] := by
  simp [List.intercalate, List.append_assoc]

lemma write_srt_lines_eq : ∀ (segs : List Segment) (k : Nat), segs ≠ [] →
    List.intercalate ['\n']
        (((segs.enumFrom k).map
          (fun p => [natDigits p.1, tsLine p.2, p.2.text, []])).flatten)
      = List.intercalate ['\n', '\n']
          ((segs.enumFrom k).map (fun p => srtBlock p.1 p.2)) ++ ['\n'] := by
  intro segs
  induction segs with
  | nil => intro k h; exact absurd rfl h
  | cons x t ih =>
    intro k _
    cases t with
    | nil =>
      simp only [List.enumFrom_cons, List.enumFrom_nil, List.map_cons,
        List.map_nil, List.flatten_cons, List.flatten_nil, List.append_nil]
      rw [intercalate_item,
        show List.intercalate ['\n', '\n'] [srtBlock k x] = srtBlock k x by
          simp [List.intercalate]]
      rfl
    | cons y t' =>
      have ihy := ih (k + 1) (by simp)
      simp only [List.enumFrom_cons, List.map_cons, List.flatten_cons] at ihy ⊢
      rw [intercalate_append_of_ne_nil ['\n'] _ _ (by simp) (by simp),
        intercalate_item, ihy, intercalate_cons_cons]
      simp [srtBlock, List.append_assoc]

/-! ### Character membership facts for written blocks -/

lemma newline_not_mem_fmtNat (w n : Nat) : '\n' ∉ fmtNat w n := by
  intro h
  have := fmtNat_all_digit w n _ h
  simp [Char.isDigit] at this

lemma newline_not_mem_fmtInt (w : Nat) (n : Int) : '\n' ∉ fmtInt w n := by
  unfold fmtInt
  split
  · intro h
    rcases List.mem_cons.mp h with h' | h'
    · exact absurd h'.symm (by decide)
    · exact newline_not_mem_fmtNat _ _ h'
  · exact newline_not_mem_fmtNat _ _

lemma newline_not_mem_format_timestamp (s : ℚ) :
    '\n' ∉ format_timestamp s := by
  intro h
  simp only [format_timestamp, List.mem_append, List.mem_cons] at h
  have h1 := newline_not_mem_fmtInt 2 (pyint (pyFloorDiv s 3600))
  have h2 := newline_not_mem_fmtInt 2 (pyint (pyFloorDiv (pymod s 3600) 60))
  have h3 := newline_not_mem_fmtInt 2 (pyint (pymod s 60))
  have h4 := newline_not_mem_fmtInt 3 (pyint (pymod s 1 * 1000))
  have e1 : ('\n' : Char) ≠ ':' := by decide
  have e2 : ('\n' : Char) ≠ ',' := by decide
  have e3 : ('\n' : Char) ∉ ([] : List Char) := by decide
  tauto

lemma newline_not_mem_tsLine (seg : Segment) : '\n' ∉ tsLine seg := by
  intro h
  simp only [tsLine, List.mem_append] at h
  have h1 := newline_not_mem_format_timestamp seg.start
  have h2 := newline_not_mem_format_timestamp seg.«end»
  have h3 : ('\n' : Char) ∉ " --> ".data := by decide
  tauto

lemma newline_not_mem_natDigits (n : Nat) : '\n' ∉ natDigits n := by
  intro h
  have := natDigits_all_digit n _ h
  simp [Char.isDigit] at this

lemma tsLine_ne_nil (seg : Segment) : tsLine seg ≠ [] := by
  intro h
  rcases List.append_eq_nil.mp h with ⟨h1, -⟩
  rcases List.append_eq_nil.mp h1 with ⟨-, h2⟩
  exact absurd h2 (by decide)

/-! ### Carriage returns and the universal-newline read translation -/

lemma cr_not_mem_fmtNat (w n : Nat) : '\r' ∉ fmtNat w n := by
  intro h
  have := fmtNat_all_digit w n _ h
  simp [Char.isDigit] at this

lemma cr_not_mem_fmtInt (w : Nat) (n : Int) : '\r' ∉ fmtInt w n := by
  unfold fmtInt
  split
  · intro h
    rcases List.mem_cons.mp h with h' | h'
    · exact absurd h'.symm (by decide)
    · exact cr_not_mem_fmtNat _ _ h'
  · exact cr_not_mem_fmtNat _ _

lemma cr_not_mem_format_timestamp (s : ℚ) : '\r' ∉ format_timestamp s := by
  intro h
  simp only [format_timestamp, List.mem_append, List.mem_cons] at h
  have h1 := cr_not_mem_fmtInt 2 (pyint (pyFloorDiv s 3600))
  have h2 := cr_not_mem_fmtInt 2 (pyint (pyFloorDiv (pymod s 3600) 60))
  have h3 := cr_not_mem_fmtInt 2 (pyint (pymod s 60))
  have h4 := cr_not_mem_fmtInt 3 (pyint (pymod s 1 * 1000))
  have e1 : ('\r' : Char) ≠ ':' := by decide
  have e2 : ('\r' : Char) ≠ ',' := by decide
  have e3 : ('\r' : Char) ∉ ([] : List Char) := by decide
  tauto

lemma cr_not_mem_tsLine (seg : Segment) : '\r' ∉ tsLine seg := by
  intro h
  simp only [tsLine, List.mem_append] at h
  have h1 := cr_not_mem_format_timestamp seg.start
  have h2 := cr_not_mem_format_timestamp seg.«end»
  have h3 : ('\r' : Char) ∉ " --> ".data := by decide
  tauto

lemma cr_not_mem_natDigits (n : Nat) : '\r' ∉ natDigits n := by
  intro h
  have := natDigits_all_digit n _ h
  simp [Char.isDigit] at this

lemma goodSegment_no_cr (seg : Segment) (hseg : goodSegment seg = true) :
    '\r' ∉ seg.text := by
  simp only [goodSegment, Bool.and_eq_true, List.all_eq_true] at hseg
  intro hc
  have := hseg.2 '\r' hc
  simp at this

lemma mem_intercalate_imp (s : List Char) : ∀ (ls : List (List Char)) (x : Char),
    x ∈ List.intercalate s ls → x ∈ s ∨ ∃ l ∈ ls, x ∈ l := by
  intro ls
  induction ls with
  | nil => intro x hx; simp [List.intercalate] at hx
  | cons B t ih =>
    intro x hx
    cases t with
    | nil =>
      rw [show List.intercalate s [B] = B by simp [List.intercalate]] at hx
      exact Or.inr ⟨B, List.mem_cons_self _ _, hx⟩
    | cons y t2 =>
      rw [intercalate_cons_cons, List.append_assoc, List.mem_append] at hx
      rcases hx with hx | hx
      · exact Or.inr ⟨B, List.mem_cons_self _ _, hx⟩
      · rw [List.mem_append] at hx
        rcases hx with hx | hx
        · exact Or.inl hx
        · rcases ih x hx with h | ⟨l, hl, hxl⟩
          · exact Or.inl h
          · exact Or.inr ⟨l, List.mem_cons_of_mem B hl, hxl⟩

lemma cr_not_mem_write_srt (segs : List Segment)
    (hgood : ∀ seg ∈ segs, goodSegment seg = true) : '\r' ∉ write_srt segs := by
  have hmem_of : ∀ p ∈ segs.enumFrom 1, p.2 ∈ segs := by
    intro p hp
    have : p.2 ∈ (segs.enumFrom 1).map Prod.snd := List.mem_map_of_mem Prod.snd hp
    rwa [List.enumFrom_map_snd] at this
  unfold write_srt
  split
  · simp
  · intro hmem
    rcases mem_intercalate_imp ['\n'] _ '\r' hmem with h | ⟨l, hl, hxl⟩
    · simp at h
    · obtain ⟨g, hg, hlg⟩ := List.mem_flatten.mp hl
      obtain ⟨p, hp, rfl⟩ := List.mem_map.mp hg
      simp only [List.mem_cons, List.not_mem_nil, or_false] at hlg
      rcases hlg with rfl | rfl | rfl | rfl
      · exact cr_not_mem_natDigits p.1 hxl
      · exact cr_not_mem_tsLine p.2 hxl
      · exact goodSegment_no_cr p.2 (hgood p.2 (hmem_of p hp)) hxl
      · simp at hxl

lemma universalNewlines_eq_self (l : List Char) (h : '\r' ∉ l) :
    universalNewlines l = l := by
  induction l with
  | nil => simp [universalNewlines]
  | cons c rest ih =>
    have hc : c ≠ '\r' := by
      intro hcc
      exact h (by rw [hcc]; exact List.mem_cons_self _ _)
    have hrest : '\r' ∉ rest := fun hm => h (List.mem_cons_of_mem c hm)
    cases rest with
    | nil => simp [universalNewlines, hc]
    | cons d rest2 =>
      simp only [universalNewlines, if_neg hc, List.cons.injEq, true_and]
      exact ih hrest

/-! ### Goodness of the written blocks -/

lemma goodSegment_text_facts (seg : Segment) (hseg : goodSegment seg = true) :
    seg.text ≠ [] ∧ NoBlankRun seg.text ∧ seg.text.head? ≠ some '\n' ∧
      seg.text.getLast? ≠ some '\n' ∧
      (∀ c, seg.text.getLast? = some c → isPySpace c = false) := by
  have hlines : ∀ l ∈ seg.text.splitOn '\n', l ≠ [] := by
    simp only [goodSegment, Bool.and_eq_true, List.all_eq_true] at hseg
    intro l hl
    have := hseg.1.1.2 l hl
    simpa using this
  have hlast_ws : isPySpace (seg.text.getLastD 'x') = false := by
    simp only [goodSegment, Bool.and_eq_true, List.all_eq_true] at hseg
    simpa using hseg.1.2
  have htext_ne : seg.text ≠ [] := by
    intro hc
    exact hlines [] (by rw [hc]; simp) rfl
  have hid : List.intercalate ['\n'] (seg.text.splitOn '\n') = seg.text :=
    List.intercalate_splitOn seg.text '\n'
  obtain ⟨hrun, hhead, hlast⟩ := intercalate_newline_good (seg.text.splitOn '\n')
    (List.splitOnP_ne_nil _ _)
    (fun l hl => ⟨hlines l hl, mem_splitOn_not_mem _ l hl⟩)
  rw [hid] at hrun hhead hlast
  refine ⟨htext_ne, hrun, hhead, hlast, fun c hc => ?_⟩
  rwa [show seg.text.getLastD 'x' = c by
    rw [List.getLastD_eq_getLast?, hc]; rfl] at hlast_ws

lemma noBlankRun_append_cons (A B : List Char) (hA : '\n' ∉ A) (hAne : A ≠ [])
    (hB : NoBlankRun B) (hBhead : B.head? ≠ some '\n') :
    NoBlankRun (A ++ '\n' :: B) := by
  rw [NoBlankRun, List.chain'_append]
  refine ⟨noBlankRun_of_no_newline A hA, ?_, ?_⟩
  · rw [List.chain'_cons']
    refine ⟨fun c hc => ?_, hB⟩
    rintro ⟨-, rfl⟩
    exact hBhead hc
  · intro a ha b hb
    rintro ⟨rfl, -⟩
    exact hA (List.mem_of_mem_getLast? ha)

lemma srtBlock_good (i : Nat) (seg : Segment) (hseg : goodSegment seg = true) :
    srtBlock i seg ≠ [] ∧ NoBlankRun (srtBlock i seg) ∧
      (srtBlock i seg).head? ≠ some '\n' ∧ (srtBlock i seg).getLast? ≠ some '\n' := by
  obtain ⟨htext_ne, hrun, hhead, hlast, -⟩ := goodSegment_text_facts seg hseg
  have hnum_ne := natDigits_ne_nil i
  have hinner : NoBlankRun (tsLine seg ++ '\n' :: seg.text) :=
    noBlankRun_append_cons _ _ (newline_not_mem_tsLine seg) (tsLine_ne_nil seg)
      hrun hhead
  have hinner_head : (tsLine seg ++ '\n' :: seg.text).head? ≠ some '\n' := by
    obtain ⟨c, t, hct⟩ := List.exists_cons_of_ne_nil (tsLine_ne_nil seg)
    rw [hct, List.cons_append]
    simp only [ne_eq, List.head?_cons, Option.some.injEq]
    rintro rfl
    exact newline_not_mem_tsLine seg (by rw [hct]; exact List.mem_cons_self _ _)
  refine ⟨by simp [srtBlock, hnum_ne], ?_, ?_, ?_⟩
  · exact noBlankRun_append_cons _ _ (newline_not_mem_natDigits i) hnum_ne
      hinner hinner_head
  · obtain ⟨c, t, hct⟩ := List.exists_cons_of_ne_nil hnum_ne
    rw [srtBlock, hct, List.cons_append]
    simp only [ne_eq, List.head?_cons, Option.some.injEq]
    rintro rfl
    exact newline_not_mem_natDigits i (by rw [hct]; exact List.mem_cons_self _ _)
  · rw [srtBlock, List.getLast?_append_of_ne_nil _ (by simp)]
    rw [show ('\n' :: (tsLine seg ++ '\n' :: seg.text)).getLast?
        = (tsLine seg ++ '\n' :: seg.text).getLast? from by
      cases h : tsLine seg ++ '\n' :: seg.text with
      | nil => simp at h
      | cons z zs => rw [List.getLast?_cons_cons]]
    rw [List.getLast?_append_of_ne_nil _ (by simp)]
    rw [show ('\n' :: seg.text).getLast? = seg.text.getLast? from by
      cases h : seg.text with
      | nil => exact absurd h htext_ne
      | cons z zs => rw [List.getLast?_cons_cons]]
    exact hlast

lemma srtBlock_getLast? (i : Nat) (seg : Segment) (htext_ne : seg.text ≠ []) :
    (srtBlock i seg).getLast? = seg.text.getLast? := by
  rw [srtBlock, List.getLast?_append_of_ne_nil _ (by simp)]
  rw [show ('\n' :: (tsLine seg ++ '\n' :: seg.text)).getLast?
      = (tsLine seg ++ '\n' :: seg.text).getLast? from by
    cases h : tsLine seg ++ '\n' :: seg.text with
    | nil => simp at h
    | cons z zs => rw [List.getLast?_cons_cons]]
  rw [List.getLast?_append_of_ne_nil _ (by simp)]
  cases h : seg.text with
  | nil => exact absurd h htext_ne
  | cons z zs => rw [List.getLast?_cons_cons]

lemma srtBlock_cons_digit (i : Nat) (seg : Segment) :
    ∃ c t, srtBlock i seg = c :: t ∧ c.isDigit = true := by
  obtain ⟨d, t', hdt⟩ := List.exists_cons_of_ne_nil (natDigits_ne_nil i)
  refine ⟨d, t' ++ '\n' :: (tsLine seg ++ '\n' :: seg.text), ?_, ?_⟩
  · rw [srtBlock, hdt, List.cons_append]
  · exact natDigits_all_digit i d (by rw [hdt]; exact List.mem_cons_self _ _)

lemma parseBlock_srtBlock (i : Nat) (seg : Segment)
    (hseg : goodSegment seg = true) :
    parseBlock (srtBlock i seg) = some seg := by
  obtain ⟨htext_ne, hrun, hhead, hlast, hlast_ws⟩ := goodSegment_text_facts seg hseg
  have hnums := hseg
  simp only [goodSegment, Bool.and_eq_true, decide_eq_true_eq, beq_iff_eq] at hnums
  obtain ⟨⟨⟨⟨⟨⟨⟨⟨h0s, h1s⟩, hdens⟩, h0e⟩, h1e⟩, hdene⟩, -⟩, -⟩, -⟩ := hnums
  have hstrip : pyStrip (srtBlock i seg) = srtBlock i seg := by
    apply pyStrip_eq_self
    · intro c hc
      obtain ⟨d, t, hdt, hdig⟩ := srtBlock_cons_digit i seg
      rw [hdt, List.head?_cons, Option.some.injEq] at hc
      subst hc
      exact isPySpace_eq_false_of_digit d hdig
    · intro c hc
      rw [srtBlock_getLast? i seg htext_ne] at hc
      exact hlast_ws c hc
  have hsplit : (srtBlock i seg).splitOn '\n'
      = natDigits i :: tsLine seg :: seg.text.splitOn '\n' := by
    simp only [srtBlock, List.splitOn]
    rw [List.splitOnP_first _ _
        (fun x hx => by
          simp only [beq_iff_eq]
          rintro rfl
          exact newline_not_mem_natDigits i hx)
        '\n' (by simp),
      List.splitOnP_first _ _
        (fun x hx => by
          simp only [beq_iff_eq]
          rintro rfl
          exact newline_not_mem_tsLine seg hx)
        '\n' (by simp)]
  unfold parseBlock
  rw [hstrip, hsplit]
  have hpos : 0 < (seg.text.splitOn '\n').length :=
    List.length_pos.mpr (List.splitOnP_ne_nil _ _)
  rw [if_neg (by simp only [List.length_cons]; omega)]
  rw [show (natDigits i :: tsLine seg :: seg.text.splitOn '\n').getD 1 []
      = tsLine seg from rfl]
  rw [show tsLine seg = format_timestamp seg.start
      ++ (" --> ".data ++ (format_timestamp seg.«end» ++ [])) by
    simp [tsLine, List.append_assoc]]
  rw [matchTimestampPair_format seg.start seg.«end» h0s h1s h0e h1e []]
  simp only [List.drop_succ_cons, List.drop_zero, Option.map_some']
  rw [floor_1000_of_ms_aligned seg.start hdens,
    floor_1000_of_ms_aligned seg.«end» hdene,
    List.intercalate_splitOn seg.text '\n']

lemma intercalate_ne_nil (s : List Char) (Bs : List (List Char)) (h : Bs ≠ [])
    (hall : ∀ l ∈ Bs, l ≠ []) : List.intercalate s Bs ≠ [] := by
  obtain ⟨B, t, rfl⟩ := List.exists_cons_of_ne_nil h
  cases t with
  | nil =>
    rw [show List.intercalate s [B] = B by simp [List.intercalate]]
    exact hall B (List.mem_cons_self _ _)
  | cons y t' =>
    rw [intercalate_cons_cons]
    intro hc
    rcases List.append_eq_nil.mp (List.append_eq_nil.mp hc).1 with ⟨h1, -⟩
    exact hall B (List.mem_cons_self _ _) h1

lemma head?_intercalate_cons (s B : List Char) (t : List (List Char))
    (hB : B ≠ []) : (List.intercalate s (B :: t)).head? = B.head? := by
  cases t with
  | nil => rw [show List.intercalate s [B] = B by simp [List.intercalate]]
  | cons y t' =>
    rw [intercalate_cons_cons]
    obtain ⟨c, cs, rfl⟩ := List.exists_cons_of_ne_nil hB
    simp

lemma getLast?_intercalate_mem (s : List Char) :
    ∀ (Bs : List (List Char)), Bs ≠ [] → (∀ l ∈ Bs, l ≠ []) →
      ∃ B ∈ Bs, (List.intercalate s Bs).getLast? = B.getLast? := by
  intro Bs
  induction Bs with
  | nil => intro h _; exact absurd rfl h
  | cons B t ih =>
    intro _ hall
    cases t with
    | nil =>
      exact ⟨B, List.mem_cons_self _ _,
        by rw [show List.intercalate s [B] = B by simp [List.intercalate]]⟩
    | cons y t' =>
      obtain ⟨B', hB', hEq⟩ := ih (by simp)
        (fun l hl => hall l (List.mem_cons_of_mem B hl))
      refine ⟨B', List.mem_cons_of_mem B hB', ?_⟩
      rw [intercalate_cons_cons, List.append_assoc,
        List.getLast?_append_of_ne_nil _ ?_,
        List.getLast?_append_of_ne_nil _ ?_, hEq]
      · exact intercalate_ne_nil s (y :: t') (by simp)
          (fun l hl => hall l (List.mem_cons_of_mem B hl))
      · intro hc
        rcases List.append_eq_nil.mp hc with ⟨-, h2⟩
        exact intercalate_ne_nil s (y :: t') (by simp)
          (fun l hl => hall l (List.mem_cons_of_mem B hl)) h2

lemma filterMap_parseBlock_enumFrom : ∀ (segs : List Segment) (k : Nat),
    (∀ seg ∈ segs, goodSegment seg = true) →
    (((segs.enumFrom k).map (fun p => srtBlock p.1 p.2)).filterMap parseBlock)
      = segs := by
  intro segs
  induction segs with
  | nil => intro k _; simp
  | cons x t ih =>
    intro k hgood
    simp only [List.enumFrom_cons, List.map_cons, List.filterMap_cons,
      parseBlock_srtBlock k x (hgood x (List.mem_cons_self x t))]
    rw [ih (k + 1) (fun sg hs => hgood sg (List.mem_cons_of_mem x hs))]

/-- Round-trip of `write_srt` and `parse_srt` content for good segments. -/
lemma parse_write_srt_aux (segs : List Segment) (hne : segs ≠ [])
    (hgood : ∀ seg ∈ segs, goodSegment seg = true) :
    parse_srt_content (write_srt segs) = segs := by
  have hmem_of : ∀ p ∈ segs.enumFrom 1, p.2 ∈ segs := by
    intro p hp
    have : p.2 ∈ (segs.enumFrom 1).map Prod.snd := List.mem_map_of_mem Prod.snd hp
    rwa [List.enumFrom_map_snd] at this
  have hblocks_ne : (segs.enumFrom 1).map (fun p => srtBlock p.1 p.2) ≠ [] := by
    obtain ⟨x, t, rfl⟩ := List.exists_cons_of_ne_nil hne
    simp
  have hblocks_good : ∀ B ∈ (segs.enumFrom 1).map (fun p => srtBlock p.1 p.2),
      B ≠ [] ∧ NoBlankRun B ∧ B.head? ≠ some '\n' ∧ B.getLast? ≠ some '\n' := by
    intro B hB
    obtain ⟨p, hp, rfl⟩ := List.mem_map.mp hB
    exact srtBlock_good p.1 p.2 (hgood p.2 (hmem_of p hp))
  have hcontent : write_srt segs
      = List.intercalate ['\n', '\n']
          ((segs.enumFrom 1).map (fun p => srtBlock p.1 p.2)) ++ ['\n'] := by
    unfold write_srt
    rw [if_neg hne]
    exact write_srt_lines_eq segs 1 hne
  rw [hcontent, parse_srt_content_eq_filterMap]
  have hstrip : pyStrip (List.intercalate ['\n', '\n']
      ((segs.enumFrom 1).map (fun p => srtBlock p.1 p.2)) ++ ['\n'])
      = List.intercalate ['\n', '\n']
          ((segs.enumFrom 1).map (fun p => srtBlock p.1 p.2)) := by
    apply pyStrip_append_newline
    · intro c hc
      obtain ⟨B, t, hBt⟩ := List.exists_cons_of_ne_nil hblocks_ne
      rw [hBt, head?_intercalate_cons _ _ _
        (hblocks_good B (by rw [hBt]; exact List.mem_cons_self _ _)).1] at hc
      obtain ⟨p, hp, hpe⟩ := List.mem_map.mp
        (show B ∈ (segs.enumFrom 1).map (fun p => srtBlock p.1 p.2) by
          rw [hBt]; exact List.mem_cons_self _ _)
      obtain ⟨d, t', hdt, hdig⟩ := srtBlock_cons_digit p.1 p.2
      rw [← hpe, hdt, List.head?_cons, Option.some.injEq] at hc
      subst hc
      exact isPySpace_eq_false_of_digit d hdig
    · intro c hc
      obtain ⟨B, hBmem, hEq⟩ := getLast?_intercalate_mem ['\n', '\n'] _
        hblocks_ne (fun l hl => (hblocks_good l hl).1)
      rw [hEq] at hc
      obtain ⟨p, hp, hpe⟩ := List.mem_map.mp hBmem
      obtain ⟨htext_ne, -, -, -, hlast_ws⟩ :=
        goodSegment_text_facts p.2 (hgood p.2 (hmem_of p hp))
      rw [← hpe, srtBlock_getLast? p.1 p.2 htext_ne] at hc
      exact hlast_ws c hc
  rw [hstrip, splitBlocks_intercalate _ hblocks_ne hblocks_good,
    filterMap_parseBlock_enumFrom segs 1 hgood]

/-! ### Chunk splitter arithmetic -/

lemma ceilDiv_nat_facts (n c : Nat) (hc : 1 ≤ c) :
    n ≤ ((n + c - 1) / c) * c ∧ ((n + c - 1) / c) * c < n + c := by
  rcases Nat.eq_zero_or_pos n with rfl | hn
  · constructor
    · omega
    · have : (c - 1) / c = 0 := Nat.div_eq_of_lt (by omega)
      simp [this]
      omega
  · have he : n + c - 1 = (n - 1) + c := by omega
    have hq : (n + c - 1) / c = (n - 1) / c + 1 := by
      rw [he, Nat.add_div_right _ (by omega)]
    have hmod := Nat.div_add_mod (n - 1) c
    have hlt : (n - 1) % c < c := Nat.mod_lt _ (by omega)
    have hle := Nat.div_mul_le_self (n - 1) c
    have hcm : (n - 1) / c * c = c * ((n - 1) / c) := Nat.mul_comm _ _
    constructor
    · rw [hq, Nat.add_mul, one_mul]
      omega
    · rw [hq, Nat.add_mul, one_mul]
      omega

lemma totalChunks_eq (n : Nat) (spc : Int) (hspc : 1 ≤ spc) :
    ⌈(n : ℚ) / (spc : ℚ)⌉ = (((n + spc.toNat - 1) / spc.toNat : Nat) : ℤ) := by
  have hc1 : 1 ≤ spc.toNat := by omega
  obtain ⟨hA, hB⟩ := ceilDiv_nat_facts n spc.toNat hc1
  have hcast : (spc : ℚ) = ((spc.toNat : Nat) : ℚ) := by
    have h := Int.toNat_of_nonneg (show (0 : ℤ) ≤ spc by omega)
    exact_mod_cast h.symm
  have hcpos : (0 : ℚ) < ((spc.toNat : Nat) : ℚ) := by exact_mod_cast hc1
  rw [hcast, Int.ceil_eq_iff]
  refine ⟨?_, ?_⟩
  · rw [show ((((n + spc.toNat - 1) / spc.toNat : Nat) : ℤ) : ℚ)
        = (((n + spc.toNat - 1) / spc.toNat : Nat) : ℚ) by norm_cast]
    refine (lt_div_iff hcpos).mpr ?_
    have hB' : (((n + spc.toNat - 1) / spc.toNat : Nat) : ℚ) * ((spc.toNat : Nat) : ℚ)
        < (n : ℚ) + ((spc.toNat : Nat) : ℚ) := by exact_mod_cast hB
    nlinarith
  · rw [show ((((n + spc.toNat - 1) / spc.toNat : Nat) : ℤ) : ℚ)
        = (((n + spc.toNat - 1) / spc.toNat : Nat) : ℚ) by norm_cast]
    refine (div_le_iff hcpos).mpr ?_
    exact_mod_cast hA

lemma take_min_length (l : List (List Char)) (c : Nat) :
    l.take (min c l.length) = l.take c := by
  rcases le_or_lt c l.length with h | h
  · rw [min_eq_left h]
  · rw [min_eq_right h.le, List.take_length, List.take_of_length_le h.le]

lemma chunkGroup_eq_take (lines : List (List Char)) (c i : Nat) :
    chunkGroup lines c i = (lines.drop (i * c)).take c := by
  unfold chunkGroup
  rcases le_or_lt (i * c) lines.length with h | h
  · have hmin : min ((i + 1) * c) lines.length - i * c
        = min c (lines.length - i * c) := by
      rw [Nat.add_mul, one_mul]
      omega
    rw [hmin, ← List.length_drop, take_min_length]
  · rw [List.drop_eq_nil_of_le h.le]
    simp

lemma flatten_chunkGroups (c : Nat) (hc : 0 < c) :
    ∀ (t : Nat) (l : List (List Char)), l.length ≤ t * c →
      ((List.range t).map (fun i => (l.drop (i * c)).take c)).flatten = l := by
  intro t
  induction t with
  | zero =>
    intro l hl
    rw [List.eq_nil_of_length_eq_zero (by omega : l.length = 0)]
    simp
  | succ t ih =>
    intro l hl
    rw [List.range_succ_eq_map]
    simp only [List.map_cons, List.map_map, List.flatten_cons]
    rw [Nat.zero_mul, List.drop_zero]
    have hcomp : ((fun i => (l.drop (i * c)).take c) ∘ Nat.succ)
        = fun i => ((l.drop c).drop (i * c)).take c := by
      funext i
      simp only [Function.comp_apply]
      rw [List.drop_drop]
      congr 2
      cases i with
      | zero => simp
      | succ j => rw [Nat.succ_mul]; omega
    have hbound : (l.drop c).length ≤ t * c := by
      rw [Nat.add_mul, one_mul] at hl
      simp only [List.length_drop]
      omega
    rw [hcomp, ih (l.drop c) hbound]
    exact List.take_append_drop c l

lemma chunkGroup_length_le (lines : List (List Char)) (c i : Nat) :
    (chunkGroup lines c i).length ≤ c := by
  rw [chunkGroup_eq_take]
  simp

lemma chunkGroup_length_eq (lines : List (List Char)) (c i : Nat)
    (h : (i + 1) * c ≤ lines.length) :
    (chunkGroup lines c i).length = c := by
  rw [chunkGroup_eq_take, List.length_take, List.length_drop]
  rw [Nat.add_mul, one_mul] at h
  omega

/-- Unfolding of `split_timestamped_txt` in the successful case. -/
lemma split_timestamped_txt_pos (fs : List Char → Option (List Char))
    (p content : List Char) (spc : Int) (hfs : fs p = some content)
    (hspc : 1 ≤ spc) (hlines : splitlines content ≠ []) :
    split_timestamped_txt fs p spc
      = ⟨(List.range (((splitlines content).length + spc.toNat - 1) / spc.toNat)).map
          (fun idx =>
            (joinParent p (chunkFilename (deriveBaseName p) idx
              (((splitlines content).length + spc.toNat - 1) / spc.toNat)),
             List.intercalate ['\n'] (chunkGroup (splitlines content) spc.toNat idx))),
        .ok ((((List.range (((splitlines content).length + spc.toNat - 1) / spc.toNat)).map
          (fun idx =>
            (joinParent p (chunkFilename (deriveBaseName p) idx
              (((splitlines content).length + spc.toNat - 1) / spc.toNat)),
             List.intercalate ['\n'] (chunkGroup (splitlines content) spc.toNat idx))))).map
          Prod.fst)⟩ := by
  simp only [split_timestamped_txt, hfs]
  rw [if_neg (by simp [hlines]), if_neg (by omega : ¬spc = 0)]
  rw [show (⌈((splitlines content).length : ℚ) / (spc : ℚ)⌉).toNat
      = ((splitlines content).length + spc.toNat - 1) / spc.toNat by
    rw [totalChunks_eq _ spc hspc]
    exact Int.toNat_natCast _]

/-! ### Filename derivation lemmas -/

lemma pyStem_txt (pre : List Char) (hpre : pre ≠ []) :
    pyStem (pre ++ ".txt".data) = pre := by
  have hrev : (pre ++ ".txt".data).reverse = 't' :: 'x' :: 't' :: '.' :: pre.reverse := by
    rw [List.reverse_append]
    rfl
  have hlen_pos : 0 < pre.length := List.length_pos.mpr hpre
  unfold pyStem
  rw [hrev]
  rw [show ('t' :: 'x' :: 't' :: '.' :: pre.reverse).takeWhile
        (fun c => decide (c ≠ '.')) = ['t', 'x', 't'] by
    simp [List.takeWhile_cons]]
  show (if (['t', 'x', 't'] : List Char).length = (pre ++ ".txt".data).length ∨
        (['t', 'x', 't'] : List Char).length = 0 ∨
        (['t', 'x', 't'] : List Char).length = (pre ++ ".txt".data).length - 1 then
      pre ++ ".txt".data
    else List.take ((pre ++ ".txt".data).length - (['t', 'x', 't'] : List Char).length - 1)
      (pre ++ ".txt".data)) = pre
  rw [show (['t', 'x', 't'] : List Char).length = 3 from rfl,
    List.length_append, show (".txt".data : List Char).length = 4 from rfl]
  rw [if_neg (by omega)]
  rw [show pre.length + 4 - 3 - 1 = pre.length by omega]
  exact List.take_left' rfl

lemma deriveBaseName_eq (p : List Char) (hsuf : ".txt".data <:+ pathName p)
    (hlen : 4 < (pathName p).length) :
    deriveBaseName p
      = (if ".timestamped".data.isSuffixOf
            ((pathName p).take ((pathName p).length - 4)) then
          ((pathName p).take ((pathName p).length - 4)).take
            (((pathName p).take ((pathName p).length - 4)).length
              - ".timestamped".data.length)
        else (pathName p).take ((pathName p).length - 4)) := by
  obtain ⟨pre, hpre⟩ := hsuf
  have hpre_ne : pre ≠ [] := by
    intro h
    subst h
    rw [List.nil_append] at hpre
    rw [← hpre] at hlen
    simp at hlen
  have hstem : pyStem (pathName p) = (pathName p).take ((pathName p).length - 4) := by
    rw [← hpre, pyStem_txt pre hpre_ne, List.length_append,
      show (".txt".data : List Char).length = 4 from rfl,
      show pre.length + 4 - 4 = pre.length by omega]
    exact (List.take_left' rfl).symm
  unfold deriveBaseName
  rw [hstem]

/-! ## The claims -/

/-- **C1 counterexample**: the one-segment sequence with text `"a "` has at
least 1 segment and no blank line in its text, yet parsing back the written
file (reading applies `read_text`'s universal-newline translation) returns
the text `"a"`: the parser's per-block `strip()` removes the trailing
space, so the round-trip claim as stated is false. -/
theorem srt_roundtrip_counterexample :
    (∀ l ∈ ("a ".data : List Char).splitOn '\n', l ≠ [])
    ∧ parse_srt_content (universalNewlines (write_srt [⟨0, 1, "a ".data⟩]))
        = [⟨0, 1, "a".data⟩]
    ∧ parse_srt_content (universalNewlines (write_srt [⟨0, 1, "a ".data⟩]))
        ≠ [⟨0, 1, "a ".data⟩] :=
  ⟨by decide, by decide, by decide⟩

/-- **C1 (amended)**: reading back the file written by `write_srt(S)` —
`read_text` applies the universal-newline translation to the stored
content, and `parse_srt` on any file system that maps the path to that
content returns `S` — for every segment sequence with at least one segment
in which every segment is `goodSegment`: its text has no blank line and,
additionally, does not end in a whitespace character and contains no
carriage return, and its `start`/`end` are non-negative whole-millisecond
values below 100 hours (the further conditions forced by the per-block
`strip()`, the `'\r'`-to-`'\n'` read translation, millisecond truncation,
and the fixed two-digit-hour parse pattern). -/
theorem srt_roundtrip (segs : List Segment) (hne : segs ≠ [])
    (hgood : ∀ seg ∈ segs, goodSegment seg = true) :
    parse_srt_content (universalNewlines (write_srt segs)) = segs
    ∧ ∀ (fs : List Char → Option (List Char)) (p : List Char),
        fs p = some (write_srt segs) → parse_srt fs p = .ok segs := by
  have h1 : parse_srt_content (universalNewlines (write_srt segs)) = segs := by
    rw [universalNewlines_eq_self _ (cr_not_mem_write_srt segs hgood)]
    exact parse_write_srt_aux segs hne hgood
  refine ⟨h1, fun fs p hfs => ?_⟩
  simp only [parse_srt, hfs]
  rw [h1]

/-- **C1 witness**: the round-trip on a concrete two-segment sequence with
multi-line text, through a concrete one-file file system. -/
theorem srt_roundtrip_witness :
    parse_srt
        (fun q => if q = "out.srt".data
          then some (write_srt [⟨0, 5/2, "Hello, world!".data⟩,
            ⟨5/2, 5, "Multi\nline".data⟩])
          else none)
        "out.srt".data
      = .ok [⟨0, 5/2, "Hello, world!".data⟩, ⟨5/2, 5, "Multi\nline".data⟩] :=
  (srt_roundtrip [⟨0, 5/2, "Hello, world!".data⟩, ⟨5/2, 5, "Multi\nline".data⟩]
    (by decide) (by decide)).2 _ "out.srt".data (by decide)

/-- **C2 counterexample**: at `s = 360000` (100 hours), a non-negative
real, the encoder emits three hour digits (`100:00:00,000`) and the fixed
`\d{2}:\d{2}:\d{2},\d{3}` decode pattern fails to match, so decoding the
encoded pair line yields nothing at all rather than a value within 1ms of
`s`. -/
theorem timestamp_codec_roundtrip_counterexample :
    (0 : ℚ) ≤ 360000
    ∧ format_timestamp 360000 = "100:00:00,000".data
    ∧ matchTimestampPair (format_timestamp 360000
        ++ (" --> ".data ++ (format_timestamp 360000 ++ []))) = none :=
  ⟨by norm_num, by decide, by decide⟩

/-- **C2 (amended)**: for every `s` with `0 ≤ s < 360000` (100 hours),
parsing the `HH:MM:SS,mmm --> HH:MM:SS,mmm` line built from the encoding
of `s` succeeds, and the decoded value `d` satisfies
`0 ≤ s - d < 0.001` (encode truncates, never rounds). -/
theorem timestamp_codec_roundtrip (s : ℚ) (h0 : 0 ≤ s) (h1 : s < 360000) :
    ∃ d : ℚ, matchTimestampPair (format_timestamp s
        ++ (" --> ".data ++ (format_timestamp s ++ []))) = some (d, d)
      ∧ 0 ≤ s - d ∧ s - d < 1 / 1000 :=
  ⟨(⌊1000 * s⌋ : ℚ) / 1000, matchTimestampPair_format s s h0 h1 h0 h1 [],
    (ms_truncation_bounds s).1, (ms_truncation_bounds s).2⟩

/-- **C2 witness**: the codec round-trip at `s = 65.123`. -/
theorem timestamp_codec_roundtrip_witness :
    ∃ d : ℚ, matchTimestampPair (format_timestamp (65.123 : ℚ)
        ++ (" --> ".data ++ (format_timestamp (65.123 : ℚ) ++ []))) = some (d, d)
      ∧ 0 ≤ (65.123 : ℚ) - d ∧ (65.123 : ℚ) - d < 1 / 1000 :=
  timestamp_codec_roundtrip (65.123 : ℚ) (by norm_num) (by norm_num)

/-- **C5**: for every non-negative `s`, `_format_timestamp` renders
`hours = floor(s/3600)`, `minutes = floor((s mod 3600)/60)`,
`secs = floor(s mod 60)` and `ms = floor((s mod 1)*1000)` — all truncated,
never rounded — zero-padded to widths 2, 2, 2 and 3, separated by colons
and a comma; and the four spec examples hold. -/
theorem format_timestamp_spec :
    (∀ s : ℚ, 0 ≤ s →
      format_timestamp s
        = fmtNat 2 ⌊s / 3600⌋.toNat ++ ':' :: fmtNat 2 ⌊pymod s 3600 / 60⌋.toNat
            ++ ':' :: fmtNat 2 ⌊pymod s 60⌋.toNat
            ++ ',' :: fmtNat 3 (⌊pymod s 1 * 1000⌋).toNat)
    ∧ format_timestamp 0 = "00:00:00,000".data
    ∧ format_timestamp (2.5 : ℚ) = "00:00:02,500".data
    ∧ format_timestamp (65.123 : ℚ) = "00:01:05,123".data
    ∧ format_timestamp (3661.5 : ℚ) = "01:01:01,500".data :=
  ⟨format_timestamp_eq_fields, by decide, by decide, by decide, by decide⟩

/-- **C5 witness**: the field formula applied at `s = 5/2`. -/
theorem format_timestamp_spec_witness :
    format_timestamp (5/2 : ℚ)
      = fmtNat 2 ⌊(5/2 : ℚ) / 3600⌋.toNat
          ++ ':' :: fmtNat 2 ⌊pymod (5/2 : ℚ) 3600 / 60⌋.toNat
          ++ ':' :: fmtNat 2 ⌊pymod (5/2 : ℚ) 60⌋.toNat
          ++ ',' :: fmtNat 3 (⌊pymod (5/2 : ℚ) 1 * 1000⌋).toNat :=
  format_timestamp_spec.1 (5/2 : ℚ) (by norm_num)

/-- **C6**: best-effort parsing: `parse_srt` is a total function of the
file content, and equals the filterMap over the blocks (the stripped
content split on runs of two-or-more newlines) that silently drops every
block with fewer than 3 lines and every block whose line 1 does not match
the timestamp-pair pattern, and maps each well-formed block to exactly one
segment whose text is lines 2.. rejoined with newlines; the
sequence-number line 0 is ignored. -/
theorem parse_srt_best_effort (content : List Char) :
    parse_srt_content content
      = (splitBlocks (pyStrip content)).filterMap (fun block =>
          let lines := (pyStrip block).splitOn '\n'
          if lines.length < 3 then none
          else
            (matchTimestampPair (lines.getD 1 [])).map
              (fun se => ⟨se.1, se.2, List.intercalate ['\n'] (lines.drop 2)⟩)) :=
  parse_srt_content_eq_filterMap content

/-- **C7**: empty inputs are not errors: all three writers write a
zero-byte file for the empty segment sequence, parsing an empty file
returns the empty sequence, and splitting an existing zero-line file
returns an empty list and performs no file writes. -/
theorem empty_inputs_ok :
    write_srt [] = [] ∧ write_txt [] = [] ∧ write_timestamped_txt [] = []
    ∧ parse_srt_content [] = []
    ∧ (∀ (fs : List Char → Option (List Char)) (p content : List Char)
        (spc : Int), fs p = some content → splitlines content = [] →
        split_timestamped_txt fs p spc = ⟨[], .ok []⟩) := by
  refine ⟨rfl, rfl, rfl, rfl, ?_⟩
  intro fs p content spc hfs hlines
  unfold split_timestamped_txt
  rw [hfs]
  show (if (splitlines content).isEmpty then (⟨[], .ok []⟩ : SplitOut) else _)
    = (⟨[], .ok []⟩ : SplitOut)
  rw [if_pos (by simp [hlines])]

/-- **C7 witness**: splitting a concrete empty file. -/
theorem empty_inputs_ok_witness :
    split_timestamped_txt
        (fun q => if q = "empty.timestamped.txt".data then some [] else none)
        "empty.timestamped.txt".data 100 = ⟨[], .ok []⟩ :=
  empty_inputs_ok.2.2.2.2
    (fun q => if q = "empty.timestamped.txt".data then some [] else none)
    "empty.timestamped.txt".data [] 100 (by decide) rfl

/-- **C8**: for a path that names no existing file, `parse_srt` fails with
a file-not-found error naming the path, and `split_timestamped_txt` fails
with a file-not-found error whose message contains the path, having
performed no file write before the failure. -/
theorem missing_file_error (fs : List Char → Option (List Char))
    (p : List Char) (spc : Int) (h : fs p = none) :
    parse_srt fs p = .error (.fileNotFound p)
    ∧ split_timestamped_txt fs p spc
        = ⟨[], .error (.fileNotFound ("Timestamped file not found: ".data ++ p))⟩
    ∧ p <:+ "Timestamped file not found: ".data ++ p := by
  refine ⟨?_, ?_, ⟨_, rfl⟩⟩
  · unfold parse_srt
    rw [h]
  · unfold split_timestamped_txt
    rw [h]

/-- **C8 witness**: both failures on a concrete missing path. -/
theorem missing_file_error_witness :
    parse_srt (fun _ => none) "missing.srt".data
        = .error (.fileNotFound "missing.srt".data)
    ∧ split_timestamped_txt (fun _ => none) "missing.srt".data 100
        = ⟨[], .error (.fileNotFound
            ("Timestamped file not found: ".data ++ "missing.srt".data))⟩
    ∧ "missing.srt".data <:+ "Timestamped file not found: ".data
        ++ "missing.srt".data :=
  missing_file_error (fun _ => none) "missing.srt".data 100 rfl

/-- **C9**: the timestamp-pair check is `re.match`, a prefix match not
anchored at the end of the line: a block whose line 1 is a valid
`HH:MM:SS,mmm --> HH:MM:SS,mmm` pair followed by arbitrary extra
characters is still accepted and produces a segment. -/
theorem parse_srt_prefix_match :
    parse_srt_content
        "1\n00:00:00,000 --> 00:00:02,500 TRAILING GARBAGE\nhello".data
      = [⟨0, 5/2, "hello".data⟩] := by decide

/-- **C10**: the division by `segments_per_chunk` is unguarded: with a
count `≥ 1` the ceiling is well-defined and the error branch is
unreachable (the call returns `ok`); with count `0` on an existing
non-empty file it raises `ZeroDivisionError`; with a negative count on an
existing non-empty file it silently returns an empty list and writes no
chunk files instead of failing. -/
theorem segments_per_chunk_guard (fs : List Char → Option (List Char))
    (p content : List Char) (hfs : fs p = some content)
    (hne : splitlines content ≠ []) :
    (∀ spc : Int, 1 ≤ spc → ∃ paths,
      (split_timestamped_txt fs p spc).ret = .ok paths)
    ∧ split_timestamped_txt fs p 0 = ⟨[], .error .zeroDivision⟩
    ∧ (∀ spc : Int, spc < 0 → split_timestamped_txt fs p spc = ⟨[], .ok []⟩) := by
  refine ⟨?_, ?_, ?_⟩
  · intro spc hspc
    rw [split_timestamped_txt_pos fs p content spc hfs hspc hne]
    exact ⟨_, rfl⟩
  · unfold split_timestamped_txt
    rw [hfs]
    show (if (splitlines content).isEmpty then _
      else if (0 : Int) = 0 then (⟨[], .error .zeroDivision⟩ : SplitOut) else _) = _
    rw [if_neg (by simp [hne]), if_pos rfl]
  · intro spc hspc
    unfold split_timestamped_txt
    rw [hfs]
    show (if (splitlines content).isEmpty then (⟨[], .ok []⟩ : SplitOut)
      else if spc = 0 then _ else _) = _
    rw [if_neg (by simp [hne]), if_neg (by omega)]
    have hceil : ⌈((splitlines content).length : ℚ) / (spc : ℚ)⌉ ≤ 0 := by
      apply Int.ceil_le.mpr
      apply div_nonpos_of_nonneg_of_nonpos
      · positivity
      · exact_mod_cast hspc.le
    simp only [Int.toNat_of_nonpos hceil, List.range_zero, List.map_nil]

/-- **C10 witness**: all three behaviors on a concrete one-line file. -/
theorem segments_per_chunk_guard_witness :
    (∀ spc : Int, 1 ≤ spc → ∃ paths,
      (split_timestamped_txt
        (fun q => if q = "f.timestamped.txt".data then some "line".data else none)
        "f.timestamped.txt".data spc).ret = .ok paths)
    ∧ split_timestamped_txt
        (fun q => if q = "f.timestamped.txt".data then some "line".data else none)
        "f.timestamped.txt".data 0 = ⟨[], .error .zeroDivision⟩
    ∧ (∀ spc : Int, spc < 0 → split_timestamped_txt
        (fun q => if q = "f.timestamped.txt".data then some "line".data else none)
        "f.timestamped.txt".data spc = ⟨[], .ok []⟩) :=
  segments_per_chunk_guard
    (fun q => if q = "f.timestamped.txt".data then some "line".data else none)
    "f.timestamped.txt".data "line".data (by decide) (by decide)

/-- **C3 counterexample**: on an existing file whose content is a single
newline — one (empty) input line — exactly one chunk file is created, but
its written content is empty, so the concatenation of the *lines of the
chunk files* (0 lines) differs from the original line list (1 line): a
chunk ending in an empty line loses it when its joined content is re-read.
The claim as stated over chunk-file lines is therefore false. -/
theorem chunk_partition_counterexample :
    (splitlines "\n".data).length = 1
    ∧ (split_timestamped_txt
        (fun q => if q = "f.timestamped.txt".data then some "\n".data else none)
        "f.timestamped.txt".data 1).writes.map Prod.snd = [[]]
    ∧ ((split_timestamped_txt
        (fun q => if q = "f.timestamped.txt".data then some "\n".data else none)
        "f.timestamped.txt".data 1).writes.map
          (fun w => splitlines w.2)).flatten ≠ splitlines "\n".data :=
  ⟨by decide, by decide, by decide⟩

/-- **C3 (amended)**: for an existing input file and `segmentsPerChunk ≥ 1`:
a zero-line file produces no chunk files and an empty list; a file with
`n ≥ 1` lines produces exactly `(n + spc - 1) / spc` chunk files (the
rational ceiling `⌈n / spc⌉`); the chunk contents are the `"\n"`-joins of
the contiguous groups `chunkGroup lines spc i` in order; the concatenation
of those groups is exactly the original line list (every line in exactly
one chunk, order preserved, group sizes summing to `n`); every group holds
at most `spc` lines and every group except the last exactly `spc`; and the
returned list is the created paths in order.  (Stated over the line groups
the chunk contents are built from: re-reading a chunk *file* can lose a
trailing empty line — see the counterexample.) -/
theorem chunk_partition (fs : List Char → Option (List Char))
    (p content : List Char) (spc : Int) (hfs : fs p = some content)
    (hspc : 1 ≤ spc) :
    (splitlines content = [] → split_timestamped_txt fs p spc = ⟨[], .ok []⟩)
    ∧ (splitlines content ≠ [] →
      ((((splitlines content).length + spc.toNat - 1) / spc.toNat : Nat) : ℤ)
          = ⌈((splitlines content).length : ℚ) / (spc : ℚ)⌉
      ∧ (split_timestamped_txt fs p spc).writes.length
          = ((splitlines content).length + spc.toNat - 1) / spc.toNat
      ∧ (split_timestamped_txt fs p spc).writes.map Prod.snd
          = (List.range (((splitlines content).length + spc.toNat - 1) / spc.toNat)).map
              (fun i => List.intercalate ['\n']
                (chunkGroup (splitlines content) spc.toNat i))
      ∧ ((List.range (((splitlines content).length + spc.toNat - 1) / spc.toNat)).map
            (fun i => chunkGroup (splitlines content) spc.toNat i)).flatten
          = splitlines content
      ∧ (∀ i, (chunkGroup (splitlines content) spc.toNat i).length ≤ spc.toNat)
      ∧ (∀ i, i + 1 < ((splitlines content).length + spc.toNat - 1) / spc.toNat →
          (chunkGroup (splitlines content) spc.toNat i).length = spc.toNat)
      ∧ (split_timestamped_txt fs p spc).ret
          = .ok ((split_timestamped_txt fs p spc).writes.map Prod.fst)) := by
  constructor
  · intro hempty
    unfold split_timestamped_txt
    rw [hfs]
    show (if (splitlines content).isEmpty then (⟨[], .ok []⟩ : SplitOut) else _)
      = (⟨[], .ok []⟩ : SplitOut)
    rw [if_pos (by simp [hempty])]
  · intro hne
    have hu := split_timestamped_txt_pos fs p content spc hfs hspc hne
    have hc1 : 1 ≤ spc.toNat := by omega
    obtain ⟨hA, hB⟩ := ceilDiv_nat_facts (splitlines content).length spc.toNat hc1
    refine ⟨(totalChunks_eq _ spc hspc).symm, ?_, ?_, ?_, ?_, ?_, ?_⟩
    · rw [hu]
      simp
    · rw [hu]
      simp [List.map_map]
    · have := flatten_chunkGroups spc.toNat (by omega)
        (((splitlines content).length + spc.toNat - 1) / spc.toNat)
        (splitlines content) hA
      rw [show (List.range (((splitlines content).length + spc.toNat - 1) / spc.toNat)).map
            (fun i => chunkGroup (splitlines content) spc.toNat i)
          = (List.range (((splitlines content).length + spc.toNat - 1) / spc.toNat)).map
            (fun i => ((splitlines content).drop (i * spc.toNat)).take spc.toNat) from
        List.map_congr_left (fun i _ => chunkGroup_eq_take _ _ _)]
      exact this
    · intro i
      exact chunkGroup_length_le _ _ _
    · intro i hi
      apply chunkGroup_length_eq
      have hn1 : 1 ≤ (splitlines content).length := List.length_pos.mpr hne
      have h1 : i + 1 ≤ ((splitlines content).length + spc.toNat - 1) / spc.toNat - 1 := by
        omega
      have h2 : (i + 1) * spc.toNat
          ≤ ((((splitlines content).length + spc.toNat - 1) / spc.toNat) - 1) * spc.toNat :=
        Nat.mul_le_mul_right _ h1
      have h3 : ((((splitlines content).length + spc.toNat - 1) / spc.toNat) - 1) * spc.toNat
          < (splitlines content).length := by
        have hT1 : 1 ≤ ((splitlines content).length + spc.toNat - 1) / spc.toNat := by omega
        rw [Nat.sub_mul, one_mul]
        omega
      omega
    · rw [hu]

/-- **C3 witness**: a three-line file split with `segmentsPerChunk = 2`
gives 2 chunks whose groups rejoin to the original lines. -/
theorem chunk_partition_witness :
    (split_timestamped_txt
        (fun q => if q = "f.timestamped.txt".data then some "a\nb\nc".data else none)
        "f.timestamped.txt".data 2).writes.length = 2
    ∧ (split_timestamped_txt
        (fun q => if q = "f.timestamped.txt".data then some "a\nb\nc".data else none)
        "f.timestamped.txt".data 2).writes.map Prod.snd
        = ["a\nb".data, ['c']]
    ∧ ((List.range 2).map
        (fun i => chunkGroup (splitlines "a\nb\nc".data) 2 i)).flatten
        = splitlines "a\nb\nc".data := by
  have h := chunk_partition
    (fun q => if q = "f.timestamped.txt".data then some "a\nb\nc".data else none)
    "f.timestamped.txt".data "a\nb\nc".data 2 (by decide) (by decide)
  obtain ⟨-, h2⟩ := h
  obtain ⟨-, hlen, -, hjoin, -, -, -⟩ := h2 (by decide)
  refine ⟨by rw [hlen]; decide, by decide, hjoin⟩

/-- **C4 counterexample**: the code derives the base name with
`Path.stem`, which strips *any* final extension, not specifically `.txt`:
for input `video.dat` the created chunk is
`video.timestamped.chunk001of001.txt`, whereas the claimed rule (strip a
trailing `.txt` extension, then a trailing `.timestamped` suffix if
present) leaves `video.dat` intact and would give
`video.dat.timestamped.chunk001of001.txt`. -/
theorem chunk_filenames_counterexample :
    (split_timestamped_txt
        (fun q => if q = "video.dat".data then some ['x'] else none)
        "video.dat".data 100).writes.map Prod.fst
      = ["video.timestamped.chunk001of001.txt".data]
    ∧ ((if ".txt".data.isSuffixOf ("video.dat".data : List Char) then
          ("video.dat".data : List Char).take ("video.dat".data.length - 4)
        else "video.dat".data)
        ++ ".timestamped.chunk001of001.txt".data
        ≠ "video.timestamped.chunk001of001.txt".data) :=
  ⟨by decide, by decide⟩

/-- **C4 (amended)**: for an existing non-empty input whose filename (the
final path component) ends in `.txt` and is longer than `.txt` itself, and
`segmentsPerChunk ≥ 1`: the base name is the filename minus the trailing
`.txt`, minus a trailing `.timestamped` if present, and chunk `i`
(0-indexed, of `total = (n + spc - 1) / spc`) is written in the input
file's directory as
`<base>.timestamped.chunk<i+1 zero-padded to 3>of<total zero-padded to 3>.txt`;
the created paths are returned in chunk order. -/
theorem chunk_filenames (fs : List Char → Option (List Char))
    (p content : List Char) (spc : Int) (hfs : fs p = some content)
    (hspc : 1 ≤ spc) (hlines : splitlines content ≠ [])
    (hsuf : ".txt".data <:+ pathName p) (hlen : 4 < (pathName p).length) :
    (split_timestamped_txt fs p spc).writes.map Prod.fst
        = (List.range (((splitlines content).length + spc.toNat - 1) / spc.toNat)).map
            (fun i => joinParent p
              ((if ".timestamped".data.isSuffixOf
                    ((pathName p).take ((pathName p).length - 4)) then
                  ((pathName p).take ((pathName p).length - 4)).take
                    (((pathName p).take ((pathName p).length - 4)).length
                      - ".timestamped".data.length)
                else (pathName p).take ((pathName p).length - 4))
                ++ ".timestamped.chunk".data ++ fmtNat 3 (i + 1) ++ "of".data
                ++ fmtNat 3 (((splitlines content).length + spc.toNat - 1) / spc.toNat)
                ++ ".txt".data))
    ∧ (split_timestamped_txt fs p spc).ret
        = .ok ((split_timestamped_txt fs p spc).writes.map Prod.fst) := by
  have hu := split_timestamped_txt_pos fs p content spc hfs hspc hlines
  constructor
  · rw [hu]
    simp only [List.map_map]
    apply List.map_congr_left
    intro i _
    simp only [Function.comp_apply]
    rw [chunkFilename, deriveBaseName_eq p hsuf hlen]
  · rw [hu]

set_option maxRecDepth 4000 in
/-- **C4 witness**: the spec's example — a 150-line
`20260112_my_video.timestamped.txt` split with `segmentsPerChunk = 100`
yields `20260112_my_video.timestamped.chunk001of002.txt` and
`20260112_my_video.timestamped.chunk002of002.txt`. -/
theorem chunk_filenames_witness :
    (split_timestamped_txt
        (fun q => if q = "20260112_my_video.timestamped.txt".data then
          some (List.intercalate ['\n'] (List.replicate 150 ['x'])) else none)
        "20260112_my_video.timestamped.txt".data 100).writes.map Prod.fst
      = ["20260112_my_video.timestamped.chunk001of002.txt".data,
         "20260112_my_video.timestamped.chunk002of002.txt".data] := by
  have h := chunk_filenames
    (fun q => if q = "20260112_my_video.timestamped.txt".data then
      some (List.intercalate ['\n'] (List.replicate 150 ['x'])) else none)
    "20260112_my_video.timestamped.txt".data
    (List.intercalate ['\n'] (List.replicate 150 ['x'])) 100
    (by decide) (by decide) (by decide)
    ⟨"20260112_my_video.timestamped".data, by decide⟩ (by decide)
  rw [h.1]
  decide

end
